import Mathlib

/-!
Verification development for the queue-insights report extraction and
loading pipeline.  The definitions below are a shallow embedding of
`src/data_pipeline/scrapers/pjm_scraper.py` (value parsers, table
extraction) and `src/data_pipeline/load_to_db.py` (the upsert loader and
the risk-score SQL passes).  Monetary and numeric cell values are
modelled as rationals; a database cell that can be NULL is an `Option`;
a Python value that can be `None`/NaN is likewise an `Option`.
-/

-- ===================== Definitions =====================

/-- Substring test on character lists: `listContains hay pat` is true when
`pat` occurs contiguously inside `hay`.  Used to embed Python's
`pat in hay` test on strings. -/
def listContains (pat : List Char) : List Char → Bool
  | [] => decide (pat = [])
  | c :: rest => pat.isPrefixOf (c :: rest) || listContains pat rest

/-- Python's `pat in s` on strings. -/
def strContains (s pat : String) : Bool := listContains pat.data s.data

/-- Strip whitespace from both ends (Python `str.strip()`). -/
def trimChars (l : List Char) : List Char :=
  ((l.dropWhile Char.isWhitespace).reverse.dropWhile Char.isWhitespace).reverse

/-- Delete every non-overlapping occurrence of `pat`, scanning left to
right (Python `str.replace(pat, '')`).  The fuel argument only serves
structural termination; it is called with the list's length, which every
step strictly decreases when `pat` is nonempty. -/
def deleteAllAux (pat : List Char) : ℕ → List Char → List Char
  | 0, l => l
  | _ + 1, [] => []
  | fuel + 1, c :: rest =>
    if pat.isPrefixOf (c :: rest) ∧ pat ≠ [] then
      deleteAllAux pat fuel (List.drop pat.length (c :: rest))
    else c :: deleteAllAux pat fuel rest

def deleteAll (s pat : String) : String :=
  String.mk (deleteAllAux pat.data s.data.length s.data)

/-- Split on the `'.'` character (all occurrences). -/
def splitDot : List Char → List (List Char)
  | [] => [[]]
  | c :: rest =>
    if c = '.' then [] :: splitDot rest
    else
      match splitDot rest with
      | [] => [[c]]
      | p :: ps => (c :: p) :: ps

/-- Numeric value of a list of decimal digits (most significant first). -/
def natOfDigits (l : List Char) : ℕ := l.foldl (fun n c => n * 10 + (c.toNat - 48)) 0

/-- All characters are decimal digits. -/
def digitsOnly (l : List Char) : Bool := l.all Char.isDigit

/-- Embedding of CPython `float(str)` restricted to the plain forms
`[+|-] digits`, `[+|-] digits . digits`, `[+|-] . digits`,
`[+|-] digits .` with surrounding whitespace allowed.  Exponent,
infinity and NaN spellings, and underscore separators are outside the
inputs this pipeline ever feeds to `float` and are mapped to `none`
(a parse failure, i.e. a Python `ValueError`). -/
def pyFloat (s : String) : Option ℚ :=
  let t := trimChars s.data
  let sb : ℚ × List Char :=
    match t with
    | '-' :: r => (-1, r)
    | '+' :: r => (1, r)
    | r => (1, r)
  match splitDot sb.2 with
  | [a] =>
      if a ≠ [] ∧ digitsOnly a then some (sb.1 * natOfDigits a) else none
  | [a, b] =>
      if (a ≠ [] ∨ b ≠ []) ∧ digitsOnly a ∧ digitsOnly b then
        some (sb.1 * ((natOfDigits a : ℚ) + (natOfDigits b : ℚ) / (10 : ℚ) ^ b.length))
      else none
  | _ => none

/-- A raw table cell as the Python code sees it: `none` is an absent value
(`None` or NaN, for which `pd.isna` is true), `some s` a string. -/
abbrev Cell := Option String

/-- `re.sub(r'[\$,\(\)]', '', s)`: delete every dollar sign, comma and
parenthesis character. -/
def stripCurrencyChars (s : String) : String :=
  String.mk (s.data.filter fun c => ¬ (c = '$' ∨ c = ',' ∨ c = '(' ∨ c = ')'))

/-- After `"(See Note"`, drop up to and including the next `')'`
(the non-greedy `.*?\)` of the regex); `none` when no `')'` follows,
meaning the regex does not match at this position. -/
def dropNoteTail (l : List Char) : Option (List Char) :=
  match l.dropWhile (fun c => c ≠ ')') with
  | [] => none
  | _ :: rest => some rest

/-- `re.sub(r'\(See Note.*?\)', '', s)` on the character list: scan left to
right, removing every non-overlapping occurrence of `"(See Note"` followed
(non-greedily) by a closing parenthesis.  The fuel argument only serves
structural termination; it is called with the list's length, which every
step strictly decreases, so the fuel never runs out. -/
def removeSeeNoteAux : ℕ → List Char → List Char
  | 0, l => l
  | _ + 1, [] => []
  | fuel + 1, c :: rest =>
    if ("(See Note".data).isPrefixOf (c :: rest) then
      match dropNoteTail (List.drop ("(See Note".data).length (c :: rest)) with
      | some rest2 => removeSeeNoteAux fuel rest2
      | none => c :: removeSeeNoteAux fuel rest
    else c :: removeSeeNoteAux fuel rest

def removeSeeNote (s : String) : String :=
  String.mk (removeSeeNoteAux s.data.length s.data)

/-- Python `str.strip()`. -/
def strip (s : String) : String := String.mk (trimChars s.data)

/-- `parse_currency` from `pjm_scraper.py`: absent/empty → 0; otherwise
strip `$`, `,`, `(`, `)` characters, then apply the `"(See Note ...)"`
removal (dead code: its pattern needs a literal `(`, which the first
substitution already deleted), strip whitespace, and convert with
`float`, degrading to 0 on failure. -/
def parse_currency (value : Cell) : ℚ :=
  match value with
  | none => 0
  | some s =>
    if s = "" then 0
    else
      let cleaned := stripCurrencyChars s
      let cleaned := strip (removeSeeNote cleaned)
      (pyFloat cleaned).getD 0

/-- `parse_percentage`: strip `%`, strip whitespace, `float(...) / 100`,
degrading to 0 on failure. -/
def parse_percentage (value : Cell) : ℚ :=
  match value with
  | none => 0
  | some s =>
    if s = "" then 0
    else
      let cleaned := strip (deleteAll s "%")
      match pyFloat cleaned with
      | some q => q / 100
      | none => 0

/-- `parse_mw`: strip the `MW` suffix, strip whitespace, `float`,
degrading to 0 on failure. -/
def parse_mw (value : Cell) : ℚ :=
  match value with
  | none => 0
  | some s =>
    if s = "" then 0
    else
      let cleaned := strip (deleteAll s "MW")
      (pyFloat cleaned).getD 0

/-- `parse_loading`: strip `%`, strip whitespace, `float` (NOT divided by
100), degrading to 0 on failure. -/
def parse_loading (value : Cell) : ℚ :=
  match value with
  | none => 0
  | some s =>
    if s = "" then 0
    else
      let cleaned := strip (deleteAll s "%")
      (pyFloat cleaned).getD 0

/-- The only exception `float(str)` can raise. -/
inductive PyErr where
  | valueError
  deriving Repr, DecidableEq

/-- `float(s)` in the exception monad: a parse failure raises `ValueError`. -/
def pyFloatE (s : String) : Except PyErr ℚ :=
  match pyFloat s with
  | some q => Except.ok q
  | none => Except.error PyErr.valueError

/-- Python `try: ... except ValueError: return d`. -/
def catchValueError (x : Except PyErr ℚ) (d : ℚ) : Except PyErr ℚ :=
  match x with
  | Except.ok q => Except.ok q
  | Except.error PyErr.valueError => Except.ok d

/-- `parse_currency` with the exception flow explicit: the only fallible
step is the `float` conversion, guarded by `try/except ValueError`. -/
def parse_currencyE (value : Cell) : Except PyErr ℚ :=
  match value with
  | none => Except.ok 0
  | some s =>
    if s = "" then Except.ok 0
    else
      let cleaned := strip (removeSeeNote (stripCurrencyChars s))
      catchValueError (pyFloatE cleaned) 0

/-- `parse_percentage` with the exception flow explicit. -/
def parse_percentageE (value : Cell) : Except PyErr ℚ :=
  match value with
  | none => Except.ok 0
  | some s =>
    if s = "" then Except.ok 0
    else
      let cleaned := strip (deleteAll s "%")
      catchValueError ((pyFloatE cleaned).map (· / 100)) 0

/-- `parse_mw` with the exception flow explicit. -/
def parse_mwE (value : Cell) : Except PyErr ℚ :=
  match value with
  | none => Except.ok 0
  | some s =>
    if s = "" then Except.ok 0
    else
      let cleaned := strip (deleteAll s "MW")
      catchValueError (pyFloatE cleaned) 0

/-- `parse_loading` with the exception flow explicit. -/
def parse_loadingE (value : Cell) : Except PyErr ℚ :=
  match value with
  | none => Except.ok 0
  | some s =>
    if s = "" then Except.ok 0
    else
      let cleaned := strip (deleteAll s "%")
      catchValueError (pyFloatE cleaned) 0

/-- A relational table with a declared unique key: the partial map from
key to row, together with the key insertion order.  This is the shape a
SQL table takes once its unique constraint — the one the code's
`ON CONFLICT (...)` clauses name — is enforced. -/
structure Table (κ ρ : Type) where
  lookup : κ → Option ρ
  keys : List κ

def Table.empty {κ ρ : Type} : Table κ ρ := ⟨fun _ => none, []⟩

/-- `INSERT ... ON CONFLICT ... DO UPDATE`: when the key is present the
stored row becomes `f (some oldRow)`; otherwise `f none` is inserted and
the key appended. -/
def Table.upsert {κ ρ : Type} [DecidableEq κ] (t : Table κ ρ) (k : κ) (f : Option ρ → ρ) :
    Table κ ρ where
  lookup := fun q => if q = k then some (f (t.lookup k)) else t.lookup q
  keys := match t.lookup k with
    | some _ => t.keys
    | none => t.keys ++ [k]

/-- A set-based `UPDATE`: every row is replaced by `f key row`. -/
def Table.mapRows {κ ρ : Type} (t : Table κ ρ) (f : κ → ρ → ρ) : Table κ ρ where
  lookup := fun q => (t.lookup q).map (f q)
  keys := t.keys

/-- The two values of the `link_type` column. -/
inductive LinkType where
  | COST_ALLOCATED
  | TAGGED_NO_COST
  deriving Repr, DecidableEq

/-- The derived risk columns of `pjm_project_costs`: the cost-rank pass
writes the first three, the later passes the rest.  In the repository's
DDL (`PJMProjectCostBase` in `src/backend/app/models/cluster.py`) every
one of these columns is nullable with a `None` default, so each is an
`Option` here. -/
structure RiskFields where
  cost_percentile : Option ℚ
  cost_rank : Option ℕ
  risk_score_cost : Option ℚ
  risk_score_concentration : Option ℚ
  risk_score_dependency : Option ℚ
  risk_score_timeline : Option ℚ
  risk_score_overall : Option ℚ
  deriving Repr, DecidableEq

/-- The DDL defaults of the risk columns: all NULL
(`Optional[Decimal] = None` throughout `PJMProjectCostBase`), and the
loader's INSERT never names any of them. -/
def riskDefaults : RiskFields :=
  { cost_percentile := none, cost_rank := none, risk_score_cost := none,
    risk_score_concentration := none, risk_score_dependency := none,
    risk_score_timeline := none, risk_score_overall := none }

/-- One row of `pjm_project_costs` (the columns `load_project` writes,
plus the risk columns). -/
structure ProjectRow where
  project_id : String
  cluster_id : ℕ
  utility : String
  developer : String
  state : String
  county : String
  fuel_type : String
  mw_capacity : Option ℚ
  mw_energy : Option ℚ
  project_status : String
  total_cost : Option ℚ
  cost_per_kw : Option ℚ
  toif_cost : Option ℚ
  stand_alone_cost : Option ℚ
  network_upgrade_cost : Option ℚ
  system_reliability_cost : Option ℚ
  rd1_amount : Option ℚ
  rd2_amount : Option ℚ
  report_url : String
  risk : RiskFields
  deriving Repr, DecidableEq

/-- One row of `pjm_upgrades`. -/
structure UpgradeRow where
  id : ℕ
  cluster_id : ℕ
  rtep_id : String
  to_id : String
  utility : Option String
  title : Option String
  total_cost : Option ℚ
  shared_by_count : ℕ
  deriving Repr, DecidableEq

/-- One row of `pjm_project_upgrades`.  `percent_allocation` is modelled
from the spec (§3 lists it as an optional column of the link entity; the
DDL is not in the repository): the loader's INSERT never names it, so it
keeps its null default. -/
structure LinkRow where
  project_id : String
  upgrade_id : ℕ
  cluster_id : ℕ
  link_type : LinkType
  allocated_cost : Option ℚ
  percent_allocation : Option ℚ
  deriving Repr, DecidableEq

/-- The `excel_data` sidecar dict of a report, field values as the
loader's `.get` calls see them (`none` = key absent, in which case the
`.get` default applies). -/
structure InExcelData where
  utility : Option String
  developer : Option String
  state : Option String
  county : Option String
  fuel_type : Option String
  status : Option String
  mw_capacity : Option ℚ
  mw_energy : Option ℚ
  deriving Repr, DecidableEq

/-- The `cost_summary` dict of a scraped report. -/
structure InCostSummary where
  total_cost : Option ℚ
  toif_cost : Option ℚ
  stand_alone_cost : Option ℚ
  network_upgrade_cost : Option ℚ
  system_reliability_cost : Option ℚ
  deriving Repr, DecidableEq

/-- The `readiness` dict of a scraped report. -/
structure InReadiness where
  rd1_amount : Option ℚ
  rd2_amount : Option ℚ
  deriving Repr, DecidableEq

/-- One entry of a report's `upgrades` list (the scraper's `Upgrade`
dataclass serialized to JSON). -/
structure InUpgrade where
  rtep_id : String
  to_id : String
  utility : Option String
  title : Option String
  total_cost : Option ℚ
  allocated_cost : Option ℚ
  deriving Repr, DecidableEq

/-- One entry of the scraper's `project_upgrade_links` list (the
`ProjectUpgradeLink` dataclass): extracted by
`_parse_project_allocation_table` but never read by the loader. -/
structure InLink where
  project_id : String
  upgrade_rtep_id : String
  mw_impact : ℚ
  percent_allocation : ℚ
  allocated_cost : ℚ
  deriving Repr, DecidableEq

/-- One `ScrapedReport` aggregate as `load_from_json` consumes it. -/
structure InReport where
  project_id : String
  report_url : Option String
  excel_data : InExcelData
  cost_summary : InCostSummary
  readiness : InReadiness
  upgrades : List InUpgrade
  project_upgrade_links : List InLink
  deriving Repr, DecidableEq

/-- Key of `pjm_project_costs`: `(project_id, cluster_id)`. -/
abbrev PKey := String × ℕ

/-- Key of `pjm_upgrades`: `(cluster_id, rtep_id, to_id)`. -/
abbrev UKey := ℕ × String × String

/-- Key of `pjm_project_upgrades`: `(project_id, upgrade_id)`. -/
abbrev LKey := String × ℕ

/-- The persistent store the loader writes: the three tables plus the
serial-id source for `pjm_upgrades.id`. -/
structure Store where
  projects : Table PKey ProjectRow
  upgrades : Table UKey UpgradeRow
  links : Table LKey LinkRow
  nextUpgradeId : ℕ

def Store.empty : Store := ⟨Table.empty, Table.empty, Table.empty, 1⟩

/-- Python `value or 0` applied to an optional number (a missing key and
an explicit null both collapse to 0, as does an explicit 0). -/
def orZero (o : Option ℚ) : ℚ := o.getD 0

/-- Python `value or None`: a zero is nulled out before the insert. -/
def zeroToNull (q : ℚ) : Option ℚ := if q = 0 then none else some q

/-- The `pjm_project_costs` row `load_project` (lines 59–130) builds from
one report: the `or 0` coercions on capacity and total cost, the
guarded cost-per-kW division, and the `or None` null-outs. -/
def newProjectRow (clusterId : ℕ) (r : InReport) : ProjectRow :=
  let mw := orZero r.excel_data.mw_capacity
  let tc := orZero r.cost_summary.total_cost
  { project_id := r.project_id
    cluster_id := clusterId
    utility := r.excel_data.utility.getD ""
    developer := r.excel_data.developer.getD ""
    state := r.excel_data.state.getD ""
    county := r.excel_data.county.getD ""
    fuel_type := r.excel_data.fuel_type.getD ""
    mw_capacity := zeroToNull mw
    mw_energy := r.excel_data.mw_energy
    project_status := r.excel_data.status.getD "Active"
    total_cost := zeroToNull tc
    cost_per_kw := if 0 < mw then some (tc / (mw * 1000)) else none
    toif_cost := r.cost_summary.toif_cost
    stand_alone_cost := r.cost_summary.stand_alone_cost
    network_upgrade_cost := r.cost_summary.network_upgrade_cost
    system_reliability_cost := r.cost_summary.system_reliability_cost
    rd1_amount := r.readiness.rd1_amount
    rd2_amount := r.readiness.rd2_amount
    report_url := r.report_url.getD ""
    risk := riskDefaults }

/-- `ON CONFLICT (project_id, cluster_id) DO UPDATE`: every scraped
column is overwritten from `EXCLUDED`; the risk columns are not in the
update list and keep their stored values. -/
def mergeProject (old new : ProjectRow) : ProjectRow := { new with risk := old.risk }

/-- The conflict handler of the project upsert: insert the fresh row, or
apply the `DO UPDATE` merge to the existing one. -/
def projStep (clusterId : ℕ) (r : InReport) (old : Option ProjectRow) : ProjectRow :=
  match old with
  | none => newProjectRow clusterId r
  | some o => mergeProject o (newProjectRow clusterId r)

/-- `load_project`: upsert the project cost record. -/
def load_project (clusterId : ℕ) (r : InReport) (s : Store) : Store :=
  { s with projects := s.projects.upsert (r.project_id, clusterId) (projStep clusterId r) }

/-- SQL `COALESCE(a, b)`. -/
def coalesce {α : Type} (a b : Option α) : Option α :=
  match a with
  | some x => some x
  | none => b

/-- SQL `GREATEST(a, b)` on nullable numbers (NULL arguments ignored). -/
def greatest (a b : Option ℚ) : Option ℚ :=
  match a, b with
  | none, y => y
  | some x, none => some x
  | some x, some y => some (max x y)

/-- `ON CONFLICT (cluster_id, rtep_id, to_id) DO UPDATE` of
`load_upgrades`: utility and title via `COALESCE(EXCLUDED..., old)`,
total cost via `GREATEST(EXCLUDED..., old)`. -/
def mergeUpgrade (old : UpgradeRow) (u : InUpgrade) : UpgradeRow :=
  { old with
    utility := coalesce u.utility old.utility
    title := coalesce u.title old.title
    total_cost := greatest u.total_cost old.total_cost }

/-- The fresh `pjm_upgrades` row inserted by `load_upgrades`. -/
def newUpgradeRow (clusterId nextId : ℕ) (u : InUpgrade) : UpgradeRow :=
  { id := nextId, cluster_id := clusterId, rtep_id := u.rtep_id,
    to_id := u.to_id, utility := u.utility, title := u.title,
    total_cost := u.total_cost, shared_by_count := 0 }

/-- The upgrade upsert of `load_upgrades` (lines 142–163), returning the
store and the `RETURNING id` value. -/
def upsertUpgrade (clusterId : ℕ) (s : Store) (u : InUpgrade) : Store × ℕ :=
  let k : UKey := (clusterId, u.rtep_id, u.to_id)
  match s.upgrades.lookup k with
  | some ex =>
      ({ s with upgrades := s.upgrades.upsert k (fun _ => mergeUpgrade ex u) }, ex.id)
  | none =>
      ({ s with
          upgrades := s.upgrades.upsert k
            (fun _ => newUpgradeRow clusterId s.nextUpgradeId u),
          nextUpgradeId := s.nextUpgradeId + 1 },
        s.nextUpgradeId)

/-- The link row built at lines 166–188: `link_type` from the sign of the
`or 0`-coerced allocated cost, the stored cost nulled when zero, and no
value for `percent_allocation` (the INSERT does not name that column). -/
def newLinkRow (clusterId : ℕ) (projectId : String) (uid : ℕ) (u : InUpgrade) : LinkRow :=
  let alloc := orZero u.allocated_cost
  { project_id := projectId, upgrade_id := uid, cluster_id := clusterId,
    link_type := if 0 < alloc then LinkType.COST_ALLOCATED else LinkType.TAGGED_NO_COST,
    allocated_cost := zeroToNull alloc,
    percent_allocation := none }

/-- `ON CONFLICT (project_id, upgrade_id) DO UPDATE SET link_type,
allocated_cost`: only those two columns are overwritten. -/
def mergeLink (old new : LinkRow) : LinkRow :=
  { old with link_type := new.link_type, allocated_cost := new.allocated_cost }

/-- The conflict handler of the link upsert. -/
def linkStep (row : LinkRow) (old : Option LinkRow) : LinkRow :=
  match old with
  | none => row
  | some o => mergeLink o row

/-- One iteration of the `load_upgrades` loop: upsert the upgrade, then
upsert the project-upgrade link under the returned id. -/
def loadOneUpgrade (clusterId : ℕ) (projectId : String) (s : Store) (u : InUpgrade) : Store :=
  let su := upsertUpgrade clusterId s u
  let row := newLinkRow clusterId projectId su.2 u
  { su.1 with links := su.1.links.upsert (projectId, su.2) (linkStep row) }

/-- `load_upgrades`: fold the loop body over the report's upgrade list. -/
def load_upgrades (clusterId : ℕ) (projectId : String) (s : Store) (us : List InUpgrade) : Store :=
  us.foldl (loadOneUpgrade clusterId projectId) s

/-- One iteration of the `load_from_json` loop: `load_project` then
`load_upgrades` on the report's `upgrades` list (and nothing else — in
particular the report's `project_upgrade_links` are never read). -/
def loadReport (clusterId : ℕ) (s : Store) (r : InReport) : Store :=
  load_upgrades clusterId r.project_id (load_project clusterId r s) r.upgrades

/-- Loading a batch of scraped reports into the store. -/
def loadBatch (clusterId : ℕ) (s : Store) (B : List InReport) : Store :=
  B.foldl (loadReport clusterId) s

/-- Natural key of an incoming upgrade record under a cluster. -/
def ukeyOf (cid : ℕ) (u : InUpgrade) : UKey := (cid, u.rtep_id, u.to_id)

/-- The upgrade-table-and-serial component of one `load_upgrades`
iteration. -/
def upgStep (cid : ℕ) (p : Table UKey UpgradeRow × ℕ) (u : InUpgrade) :
    Table UKey UpgradeRow × ℕ :=
  match p.1.lookup (ukeyOf cid u) with
  | some ex => (p.1.upsert (ukeyOf cid u) (fun _ => mergeUpgrade ex u), p.2)
  | none => (p.1.upsert (ukeyOf cid u) (fun _ => newUpgradeRow cid p.2 u), p.2 + 1)

/-- The `RETURNING id` value of the upgrade upsert, read off the state. -/
def uidAt (cid : ℕ) (p : Table UKey UpgradeRow × ℕ) (u : InUpgrade) : ℕ :=
  match p.1.lookup (ukeyOf cid u) with
  | some ex => ex.id
  | none => p.2

/-- The `(project_id, upgrade)` pairs the `load_upgrades` loops of a
batch process, in load order. -/
def ulOps (B : List InReport) : List (String × InUpgrade) :=
  B.flatMap (fun r => r.upgrades.map (fun u => (r.project_id, u)))

/-- Folding only the upgrade-table component over an op list. -/
def upgFold (cid : ℕ) (p : Table UKey UpgradeRow × ℕ)
    (ops : List (String × InUpgrade)) : Table UKey UpgradeRow × ℕ :=
  ops.foldl (fun q o => upgStep cid q o.2) p

/-- One `load_upgrades` iteration with its effect on the three touched
components spelled out. -/
def pipeStep (cid : ℕ) (st : Store) (o : String × InUpgrade) : Store :=
  { st with
    upgrades := (upgStep cid (st.upgrades, st.nextUpgradeId) o.2).1
    nextUpgradeId := (upgStep cid (st.upgrades, st.nextUpgradeId) o.2).2
    links := st.links.upsert (o.1, uidAt cid (st.upgrades, st.nextUpgradeId) o.2)
      (linkStep (newLinkRow cid o.1 (uidAt cid (st.upgrades, st.nextUpgradeId) o.2) o.2)) }

def pipeFold (cid : ℕ) (s : Store) (ops : List (String × InUpgrade)) : Store :=
  ops.foldl (pipeStep cid) s

/-- The project-table component of a batch load. -/
def projFold (cid : ℕ) (t : Table PKey ProjectRow) (B : List InReport) :
    Table PKey ProjectRow :=
  B.foldl (fun t2 r => t2.upsert (r.project_id, cid) (projStep cid r)) t

/-- The `(project id, upgrade id, upgrade)` triples the link upserts of a
batch use, with the upgrade-table evolution assigning the ids. -/
def linkOps (cid : ℕ) (p : Table UKey UpgradeRow × ℕ) :
    List (String × InUpgrade) → List (String × ℕ × InUpgrade)
  | [] => []
  | o :: ops => (o.1, uidAt cid p o.2, o.2) :: linkOps cid (upgStep cid p o.2) ops

def linkFold (cid : ℕ) (L : Table LKey LinkRow) (los : List (String × ℕ × InUpgrade)) :
    Table LKey LinkRow :=
  los.foldl (fun L2 e => L2.upsert (e.1, e.2.1) (linkStep (newLinkRow cid e.1 e.2.1 e.2.2))) L

/-- Per-key fold of the `COALESCE` merges. -/
def coalesceFold (a : Option String) (vs : List (Option String)) : Option String :=
  vs.foldl (fun c v => coalesce v c) a

/-- Per-key fold of the `GREATEST` merges. -/
def greatestFold (a : Option ℚ) (vs : List (Option ℚ)) : Option ℚ :=
  vs.foldl (fun c v => greatest v c) a

/-- The incoming upgrade values a batch applies at one upgrade key. -/
def upsAt (cid : ℕ) (k : UKey) (ops : List (String × InUpgrade)) : List InUpgrade :=
  (ops.filter (fun o => decide (ukeyOf cid o.2 = k))).map (fun o => o.2)

/-- The id stored at an upgrade key (0 when the key is absent; only read
at present keys). -/
def idOfTable (t : Table UKey UpgradeRow) (k : UKey) : ℕ :=
  ((t.lookup k).map (fun r => r.id)).getD 0

/-- The uid returned by each successive upgrade upsert of an op list. -/
def uidTrace (cid : ℕ) (p : Table UKey UpgradeRow × ℕ) :
    List (String × InUpgrade) → List ℕ
  | [] => []
  | o :: ops => uidAt cid p o.2 :: uidTrace cid (upgStep cid p o.2) ops

/-- The link rows a batch applies at one link key. -/
def linkRowsAt (cid : ℕ) (k : LKey) (los : List (String × ℕ × InUpgrade)) : List LinkRow :=
  (los.filter (fun e => decide (((e.1, e.2.1) : LKey) = k))).map
    (fun e => newLinkRow cid e.1 e.2.1 e.2.2)

/-- The project rows a batch applies at one project key. -/
def projRowsAt (cid : ℕ) (k : PKey) (B : List InReport) : List ProjectRow :=
  (B.filter (fun r => decide (((r.project_id, cid) : PKey) = k))).map
    (fun r => newProjectRow cid r)

/-- `projStep` with the constructed row abstracted out. -/
def projApplyRow (v : ProjectRow) (old : Option ProjectRow) : ProjectRow :=
  match old with
  | none => v
  | some o => mergeProject o v

/-- Chain of link upserts at one key. -/
def lchain (a : Option LinkRow) (vs : List LinkRow) : Option LinkRow :=
  vs.foldl (fun c v => some (linkStep v c)) a

/-- Chain of project upserts at one key. -/
def pchain (a : Option ProjectRow) (vs : List ProjectRow) : Option ProjectRow :=
  vs.foldl (fun c v => some (projApplyRow v c)) a

/-- Well-formedness of a keyed table: the key list has no duplicates and
lists exactly the keys holding a row. -/
def TableWF {κ ρ : Type} (t : Table κ ρ) : Prop :=
  t.keys.Nodup ∧ ∀ k, (t.lookup k).isSome ↔ k ∈ t.keys

/-- Whether a project row is in the ranked window of the cost-percentile
pass: same cluster, non-null and strictly positive cost per kW
(`WHERE cluster_id = %s AND cost_per_kw IS NOT NULL AND cost_per_kw > 0`). -/
def inRankedPop (cid : ℕ) (r : ProjectRow) : Bool :=
  decide (r.cluster_id = cid) &&
    (match r.cost_per_kw with
     | some c => decide (0 < c)
     | none => false)

/-- The keys of the ranked window, in table order. -/
def rankedPop (cid : ℕ) (s : Store) : List PKey :=
  s.projects.keys.filter (fun k =>
    match s.projects.lookup k with
    | some r => inRankedPop cid r
    | none => false)

/-- The cost per kW stored at a project key, when present. -/
def cpkOf (s : Store) (k : PKey) : Option ℚ :=
  (s.projects.lookup k).bind (fun r => r.cost_per_kw)

/-- `RANK() OVER (ORDER BY cost_per_kw)`: 1 plus the number of strictly
cheaper rows in the window (ties share a rank). -/
def rankOf (cid : ℕ) (s : Store) (c : ℚ) : ℕ :=
  1 + (rankedPop cid s).countP (fun k =>
    match cpkOf s k with
    | some c2 => decide (c2 < c)
    | none => false)

/-- `PERCENT_RANK() * 100`: `(rank - 1) / (rows - 1) * 100`, and 0 for a
single-row window (the Postgres convention). -/
def percentileOf (cid : ℕ) (s : Store) (c : ℚ) : ℚ :=
  if (rankedPop cid s).length ≤ 1 then 0
  else (((rankOf cid s c - 1 : ℕ) : ℚ) / (((rankedPop cid s).length : ℚ) - 1)) * 100

/-- The row update of pass 1: rows in the window get their percentile,
rank and cost score (the score column stores the percentile); other rows
are untouched. -/
def costRankUpdate (cid : ℕ) (s : Store) (r : ProjectRow) : ProjectRow :=
  match r.cost_per_kw with
  | some c =>
    if inRankedPop cid r then
      { r with risk := { r.risk with
          cost_percentile := some (percentileOf cid s c),
          cost_rank := some (rankOf cid s c),
          risk_score_cost := some (percentileOf cid s c) } }
    else r
  | none => r

/-- Pass 1 of `calculate_risk_scores` (lines 198–217). -/
def costRankPass (cid : ℕ) (s : Store) : Store :=
  { s with projects := s.projects.mapRows (fun _ r => costRankUpdate cid s r) }

/-- The allocated costs of a project's `COST_ALLOCATED` links in the
cluster, null costs dropped as SQL aggregates drop them. -/
def caCosts (cid : ℕ) (s : Store) (pid : String) : List ℚ :=
  s.links.keys.filterMap (fun k =>
    match s.links.lookup k with
    | some row =>
      if row.cluster_id = cid ∧ row.link_type = LinkType.COST_ALLOCATED ∧
          row.project_id = pid then row.allocated_cost
      else none
    | none => none)

/-- Whether the project has any `COST_ALLOCATED` link row in the cluster
(i.e. appears in the grouped `max_upgrade` CTE). -/
def hasCALink (cid : ℕ) (s : Store) (pid : String) : Bool :=
  s.links.keys.any (fun k =>
    match s.links.lookup k with
    | some row => decide (row.cluster_id = cid) &&
        decide (row.link_type = LinkType.COST_ALLOCATED) &&
        decide (row.project_id = pid)
    | none => false)

/-- `CASE WHEN total > 0 THEN (max / total) * 100 ELSE 0 END` with the
SQL `MAX`/`SUM` aggregates over the project's allocated costs. -/
def concentrationScore (cid : ℕ) (s : Store) (pid : String) : ℚ :=
  match caCosts cid s pid with
  | [] => 0
  | c :: cs => if 0 < (c :: cs).sum then ((cs.foldl max c) / (c :: cs).sum) * 100 else 0

/-- Pass 2 of `calculate_risk_scores` (lines 219–240): rows of the
cluster whose project appears in the grouped CTE get the concentration
score; other rows are untouched. -/
def concentrationPass (cid : ℕ) (s : Store) : Store :=
  { s with projects := s.projects.mapRows (fun _ r =>
      if r.cluster_id = cid ∧ hasCALink cid s r.project_id = true then
        { r with risk := { r.risk with
            risk_score_concentration := some (concentrationScore cid s r.project_id) } }
      else r) }

/-- The four risk weights (query parameters of the overall pass). -/
structure RiskWeights where
  cost : ℚ
  concentration : ℚ
  dependency : ℚ
  timeline : ℚ
  deriving Repr, DecidableEq

/-- `RISK_WEIGHTS` from `config.py`. -/
def RISK_WEIGHTS : RiskWeights :=
  { cost := 35 / 100, concentration := 25 / 100,
    dependency := 25 / 100, timeline := 15 / 100 }

/-- The weighted sum of pass 5 (lines 297–316): every component is
`COALESCE`d to 0, matching the four `COALESCE(risk_score_*, 0)` terms of
the UPDATE. -/
def overallScore (w : RiskWeights) (r : ProjectRow) : ℚ :=
  (r.risk.risk_score_cost.getD 0) * w.cost +
    (r.risk.risk_score_concentration.getD 0) * w.concentration +
    (r.risk.risk_score_dependency.getD 0) * w.dependency +
    (r.risk.risk_score_timeline.getD 0) * w.timeline

/-- Pass 5 of `calculate_risk_scores`: every row of the cluster gets the
weighted overall score. -/
def overallPass (w : RiskWeights) (cid : ℕ) (s : Store) : Store :=
  { s with projects := s.projects.mapRows (fun _ r =>
      if r.cluster_id = cid then
        { r with risk := { r.risk with risk_score_overall := some (overallScore w r) } }
      else r) }

-- ===================== Table extraction (pjm_scraper.py) ==============

/-- One table as `pandas.read_html` hands it to the extractors: flat
column labels and rows of cells (`none` = NaN).  The multi-index
flattening step is upstream of everything modelled here. -/
structure DocTable where
  cols : List String
  rows : List (List Cell)
  deriving Repr, DecidableEq

/-- `str(val)` on a cell as the extractors apply it (pandas NaN prints
as `nan`). -/
def cellStr (c : Cell) : String := c.getD "nan"

/-- `row[col]`: the cell under a column label.  The extractors only ever
index labels taken from `df.columns`, so the missing-label case (which
pandas raises on) is mapped to an absent cell. -/
def cellAt (cols : List String) (row : List Cell) (c : String) : Cell :=
  match cols.indexOf? c with
  | some i => row.getD i none
  | none => none

/-- The column search of `_extract_cost_summary`:
`for col in df.columns: if 'Cost Allocated' in str(col)` with `break`,
i.e. the first matching label. -/
def findCostCol (cols : List String) : Option String :=
  cols.find? (fun c => strContains c "Cost Allocated")

/-- One row of the cost-summary keyword cascade (lines 221–233 of
`pjm_scraper.py`): the description cell routes the parsed cost into one
of the five summary fields. -/
def costRowStep (cols : List String) (descCol costCol : String)
    (cs : InCostSummary) (row : List Cell) : InCostSummary :=
  let desc := strip (cellStr (cellAt cols row descCol))
  let cost := parse_currency (cellAt cols row costCol)
  if strContains desc "Total" && !(strContains desc "Grand") then
    { cs with total_cost := some cost }
  else if strContains desc "Transmission Owner Interconnection"
      || strContains desc "TOIF" then
    { cs with toif_cost := some cost }
  else if strContains desc "Stand Alone" then
    { cs with stand_alone_cost := some cost }
  else if strContains desc "Network Upgrade" && !(strContains desc "System") then
    { cs with network_upgrade_cost := some cost }
  else if strContains desc "Steady State" || strContains desc "System Reliability" then
    { cs with system_reliability_cost := some cost }
  else cs

/-- `_extract_cost_summary` (lines 195–238): unconditionally processes
`tables[0]` — no header classification guards the slot.  The summary is
left unchanged when there is no table, or no column label contains
`"Cost Allocated"` (the guard that also covers an empty column list). -/
def extract_cost_summary (tables : List DocTable) (cs : InCostSummary) : InCostSummary :=
  match tables with
  | [] => cs
  | t :: _ =>
    match findCostCol t.cols with
    | none => cs
    | some costCol =>
      match t.cols with
      | [] => cs
      | descCol :: _ => t.rows.foldl (costRowStep t.cols descCol costCol) cs

/-- ASCII `str.lower()` (every label the scraper tests is ASCII). -/
def charLower (c : Char) : Char :=
  if 'A' ≤ c ∧ c ≤ 'Z' then Char.ofNat (c.toNat + 32) else c

/-- `str.lower()`. -/
def lowerStr (s : String) : String := String.mk (s.data.map charLower)

/-- One column of the readiness scan (lines 251–258): an `RD1`/`Received`
label sets the RD1 amount from the first row, otherwise an `RD2`/`due`
label sets the RD2 amount from the first row. -/
def readinessColStep (t : DocTable) (rd : InReadiness) (col : String) : InReadiness :=
  if strContains col "RD1" || strContains col "Received" then
    match t.rows with
    | [] => rd
    | r0 :: _ => { rd with rd1_amount := some (parse_currency (cellAt t.cols r0 col)) }
  else if strContains col "RD2" || strContains (lowerStr col) "due" then
    match t.rows with
    | [] => rd
    | r0 :: _ => { rd with rd2_amount := some (parse_currency (cellAt t.cols r0 col)) }
  else rd

/-- `_extract_readiness` (lines 240–263): unconditionally processes
`tables[1]`; untouched when the document has fewer than two tables. -/
def extract_readiness (tables : List DocTable) (rd : InReadiness) : InReadiness :=
  match tables with
  | [] => rd
  | [_] => rd
  | _ :: t :: _ => t.cols.foldl (readinessColStep t) rd

/-- `' '.join(str(c) for c in df.columns)`. -/
def joinSpace : List String → String
  | [] => ""
  | [c] => c
  | c :: cs => c ++ " " ++ joinSpace cs

/-- The upgrade-summary header signature `_extract_upgrades` tests
(line 277): the joined labels contain `RTEP ID`, `Title` and
`Allocated Cost`. -/
def isUpgradeSummaryHeader (cols : List String) : Bool :=
  strContains (joinSpace cols) "RTEP ID" && strContains (joinSpace cols) "Title"
    && strContains (joinSpace cols) "Allocated Cost"

/-- The project-allocation header signature `_extract_upgrades` tests
(line 281): the joined labels contain `Project`, `MW Impact` and
`Percent Allocation`. -/
def isProjectAllocationHeader (cols : List String) : Bool :=
  strContains (joinSpace cols) "Project" && strContains (joinSpace cols) "MW Impact"
    && strContains (joinSpace cols) "Percent Allocation"

/-- The table roles the spec's classification story distinguishes. -/
inductive TableRole where
  | COST_SUMMARY
  | READINESS
  | UPGRADE_SUMMARY
  | PROJECT_ALLOCATION
  | UNKNOWN
  deriving Repr, DecidableEq

/-- Modelled from the spec: header-token classification of one table,
conclusive exactly when the headers match a known role.  The spec gives
explicit token signatures only for the upgrade-summary and
project-allocation roles (the two the code tests); any other header set
is inconclusive. -/
def classifySpec (t : DocTable) : TableRole :=
  if isUpgradeSummaryHeader t.cols then TableRole.UPGRADE_SUMMARY
  else if isProjectAllocationHeader t.cols then TableRole.PROJECT_ALLOCATION
  else TableRole.UNKNOWN

/-- A first table whose headers conclusively classify it as an upgrade
summary; like real upgrade-summary tables it also carries a
`Cost Allocated` column, and its first data row reads `Total  $100`
under description and cost. -/
def tableT0 : DocTable :=
  ⟨["Description", "RTEP ID", "Title", "Allocated Cost", "Cost Allocated"],
    [[some "Total", some "n1", some "T", some "$40", some "$100"]]⟩

-- Concrete test inputs for the overall-score pass.

/-- A weight vector that sums to 1 but has a negative component. -/
def negWeights : RiskWeights := ⟨2, -1, 0, 0⟩

/-- A project row whose four component scores (after the pass's
`COALESCE` to 0) all lie inside `[0, 100]`: cost score 100, the other
three at their NULL defaults reading as 0. -/
def rowCW : ProjectRow :=
  ⟨"P", 1, "", "", "", "", "", none, none, "Active", none, none, none, none,
    none, none, none, none, "", ⟨none, none, some 100, none, none, none, none⟩⟩

/-- A one-row store holding `rowCW` under key `("P", 1)`. -/
def storeCW : Store :=
  ⟨⟨fun k => if k = ("P", 1) then some rowCW else none, [("P", 1)]⟩,
    Table.empty, Table.empty, 1⟩

-- ===================== Theorems =====================

theorem Table.lookup_upsert_self {κ ρ : Type} [DecidableEq κ] (t : Table κ ρ) (k : κ)
    (f : Option ρ → ρ) : (t.upsert k f).lookup k = some (f (t.lookup k)) := by
  simp [Table.upsert]

theorem Table.lookup_upsert_ne {κ ρ : Type} [DecidableEq κ] (t : Table κ ρ) (k q : κ)
    (f : Option ρ → ρ) (h : q ≠ k) : (t.upsert k f).lookup q = t.lookup q := by
  simp [Table.upsert, h]

/-- C2.  Upgrade total-cost reconciliation is max-wins and never
decreases: upserting an existing upgrade row whose natural key
`(cluster, rtep_id, to_id)` it shares leaves the stored `total_cost` at
the maximum of the existing and incoming values — at least as large as
either. -/
theorem C2_upgrade_total_cost_max_wins (cid : ℕ) (pid : String) (s : Store) (u : InUpgrade)
    (ex : UpgradeRow) (c₁ c₂ : ℚ)
    (hex : s.upgrades.lookup (cid, u.rtep_id, u.to_id) = some ex)
    (h₁ : ex.total_cost = some c₁) (h₂ : u.total_cost = some c₂) :
    ∃ r, (loadOneUpgrade cid pid s u).upgrades.lookup (cid, u.rtep_id, u.to_id) = some r ∧
      r.total_cost = some (max c₁ c₂) ∧ c₁ ≤ max c₁ c₂ ∧ c₂ ≤ max c₁ c₂ := by
  refine ⟨mergeUpgrade ex u, ?_, ?_, le_max_left _ _, le_max_right _ _⟩
  · simp only [loadOneUpgrade, upsertUpgrade, hex]
    exact Table.lookup_upsert_self _ _ _
  · simp [mergeUpgrade, greatest, h₁, h₂, max_comm]

/-- Witness for `C2_upgrade_total_cost_max_wins`: loading total cost
1 000 000 and then re-loading the same natural key with 800 000 leaves
the stored total cost at `max 1000000 800000 = 1000000`. -/
theorem C2_upgrade_total_cost_max_wins_witness :
    (∃ r, (loadOneUpgrade 7 "P1" (loadOneUpgrade 7 "P1" Store.empty
        ⟨"n1", "TO1", none, none, some 1000000, none⟩)
        ⟨"n1", "TO1", none, none, some 800000, none⟩).upgrades.lookup (7, "n1", "TO1") =
          some r ∧
      r.total_cost = some (max 1000000 800000) ∧
      (1000000 : ℚ) ≤ max 1000000 800000 ∧ (800000 : ℚ) ≤ max 1000000 800000) ∧
    max (1000000 : ℚ) 800000 = 1000000 :=
  ⟨C2_upgrade_total_cost_max_wins 7 "P1" _ _
      ⟨1, 7, "n1", "TO1", none, none, some 1000000, 0⟩ 1000000 800000 (by rfl) rfl rfl,
    max_eq_left (by norm_num)⟩

/-- C3.  Link-type derivation at load time: the link row written by the
`load_upgrades` loop body carries `COST_ALLOCATED` exactly when the
incoming allocated cost (after the `or 0` coercion) is strictly
positive, and `TAGGED_NO_COST` otherwise — whether the link is inserted
fresh or overwrites an existing row. -/
theorem C3_link_type_from_allocated_cost (cid : ℕ) (pid : String) (s : Store) (u : InUpgrade) :
    ∃ r, (loadOneUpgrade cid pid s u).links.lookup (pid, (upsertUpgrade cid s u).2) =
        some r ∧
      r.link_type = (if 0 < orZero u.allocated_cost then LinkType.COST_ALLOCATED
        else LinkType.TAGGED_NO_COST) ∧
      r.allocated_cost = zeroToNull (orZero u.allocated_cost) := by
  unfold loadOneUpgrade
  rcases h : (upsertUpgrade cid s u).1.links.lookup (pid, (upsertUpgrade cid s u).2) with _ | o
  · refine ⟨newLinkRow cid pid (upsertUpgrade cid s u).2 u, ?_, rfl, rfl⟩
    rw [Table.lookup_upsert_self, h]
    rfl
  · refine ⟨mergeLink o (newLinkRow cid pid (upsertUpgrade cid s u).2 u), ?_, rfl, rfl⟩
    rw [Table.lookup_upsert_self, h]
    rfl

/-- The cleaning pipeline `parse_currency` applies to a non-empty string. -/
def currencyClean (s : String) : String := strip (removeSeeNote (stripCurrencyChars s))

theorem parse_currency_some_ne (s : String) (h : s ≠ "") :
    parse_currency (some s) = (pyFloat (currencyClean s)).getD 0 := by
  simp [parse_currency, currencyClean, h]

theorem parse_currencyE_some_ne (s : String) (h : s ≠ "") :
    parse_currencyE (some s) = catchValueError (pyFloatE (currencyClean s)) 0 := by
  simp [parse_currencyE, currencyClean, h]

theorem catch_pyFloatE (s : String) :
    catchValueError (pyFloatE s) 0 = Except.ok ((pyFloat s).getD 0) := by
  rcases h : pyFloat s with _ | q <;> simp [pyFloatE, catchValueError, h]

theorem catch_pyFloatE_map (s : String) :
    catchValueError ((pyFloatE s).map (· / 100)) 0 =
      Except.ok (match pyFloat s with | some q => q / 100 | none => 0) := by
  rcases h : pyFloat s with _ | q <;> simp [pyFloatE, catchValueError, h, Except.map]

/-- C5.  Currency parser test vectors.  The first, third and fourth
vectors behave as the spec says, but `"$59,900,000 (See Note 1)"` parses
to 0, not 59 900 000: the first substitution in `parse_currency` already
deletes the parenthesis characters, so the subsequent
`re.sub(r'\(See Note.*?\)', ...)` — which requires a literal `'('` —
can never match, the text `"See Note 1"` survives into `float(...)`,
and the `ValueError` handler degrades the result to 0.  This contradicts
the function's own comment ("Remove $, commas, parentheses, and notes
like \x22(See Note 1)\x22"), whose intent the spec states. -/
theorem C5_parse_currency_vectors :
    parse_currency (some "$1,234,567") = 1234567 ∧
    parse_currency (some "$59,900,000 (See Note 1)") = 0 ∧
    parse_currency (some "") = 0 ∧
    parse_currency none = 0 := by
  refine ⟨?_, ?_, by simp [parse_currency], by simp [parse_currency]⟩
  · rw [parse_currency_some_ne _ (by decide),
        show currencyClean "$1,234,567" = "1234567" from by decide,
        show pyFloat "1234567" = some ((1 : ℚ) * 1234567) from rfl]
    norm_num
  · rw [parse_currency_some_ne _ (by decide),
        show currencyClean "$59,900,000 (See Note 1)" = "59900000 See Note 1" from by decide,
        show pyFloat "59900000 See Note 1" = none from rfl]
    rfl

/-- C9.  The four value parsers are total and never raise: the
exception-explicit embeddings always return `Except.ok` with exactly the
value of the total parsers, the absent and empty markers parse to the
default 0, and an unparseable cleaned string degrades to 0 as well. -/
theorem C9_parsers_never_raise :
    (∀ v : Cell,
      parse_currencyE v = Except.ok (parse_currency v) ∧
      parse_percentageE v = Except.ok (parse_percentage v) ∧
      parse_mwE v = Except.ok (parse_mw v) ∧
      parse_loadingE v = Except.ok (parse_loading v)) ∧
    (parse_currency none = 0 ∧ parse_percentage none = 0 ∧
      parse_mw none = 0 ∧ parse_loading none = 0 ∧
      parse_currency (some "") = 0 ∧ parse_percentage (some "") = 0 ∧
      parse_mw (some "") = 0 ∧ parse_loading (some "") = 0) ∧
    (∀ s : String, pyFloat (currencyClean s) = none → parse_currency (some s) = 0) ∧
    (∀ s : String, pyFloat (strip (deleteAll s "%")) = none →
      parse_percentage (some s) = 0 ∧ parse_loading (some s) = 0) ∧
    (∀ s : String, pyFloat (strip (deleteAll s "MW")) = none → parse_mw (some s) = 0) := by
  refine ⟨fun v => ?_, by simp [parse_currency, parse_percentage, parse_mw, parse_loading,
      parse_currencyE, parse_percentageE, parse_mwE, parse_loadingE], ?_, ?_, ?_⟩
  · rcases v with _ | s
    · simp [parse_currency, parse_percentage, parse_mw, parse_loading,
        parse_currencyE, parse_percentageE, parse_mwE, parse_loadingE]
    · by_cases h : s = ""
      · subst h
        simp [parse_currency, parse_percentage, parse_mw, parse_loading,
          parse_currencyE, parse_percentageE, parse_mwE, parse_loadingE]
      · refine ⟨?_, ?_, ?_, ?_⟩ <;>
          simp only [parse_currency, parse_percentage, parse_mw, parse_loading,
            parse_currencyE, parse_percentageE, parse_mwE, parse_loadingE, if_neg h]
        · exact catch_pyFloatE _
        · exact catch_pyFloatE_map _
        · exact catch_pyFloatE _
        · exact catch_pyFloatE _
  · intro s hs
    by_cases h : s = ""
    · subst h; simp [parse_currency]
    · rw [parse_currency_some_ne _ h, hs]; rfl
  · intro s hs
    by_cases h : s = ""
    · subst h; simp [parse_percentage, parse_loading]
    · constructor <;> simp [parse_percentage, parse_loading, h, hs]
  · intro s hs
    by_cases h : s = ""
    · subst h; simp [parse_mw]
    · simp [parse_mw, h, hs]

/-- Closed-instance witness for the hypothesis-bearing conjuncts of
`C9_parsers_never_raise` at the concrete unparseable cell `"n/a"`. -/
theorem C9_parsers_never_raise_witness :
    parse_currency (some "n/a") = 0 ∧ parse_percentage (some "n/a") = 0 ∧
    parse_mw (some "n/a") = 0 ∧ parse_loading (some "n/a") = 0 :=
  ⟨C9_parsers_never_raise.2.2.1 "n/a" (by rfl),
   (C9_parsers_never_raise.2.2.2.1 "n/a" (by rfl)).1,
   C9_parsers_never_raise.2.2.2.2 "n/a" (by rfl),
   (C9_parsers_never_raise.2.2.2.1 "n/a" (by rfl)).2⟩

theorem Table.ext_of {κ ρ : Type} {t₁ t₂ : Table κ ρ}
    (hl : ∀ k, t₁.lookup k = t₂.lookup k) (hk : t₁.keys = t₂.keys) : t₁ = t₂ := by
  cases t₁; cases t₂
  simp only [Table.mk.injEq]
  exact ⟨funext hl, hk⟩

theorem loadOneUpgrade_eq_pipeStep (cid : ℕ) (pid : String) (s : Store) (u : InUpgrade) :
    loadOneUpgrade cid pid s u = pipeStep cid s (pid, u) := by
  unfold loadOneUpgrade upsertUpgrade pipeStep upgStep uidAt ukeyOf
  cases h : s.upgrades.lookup (cid, u.rtep_id, u.to_id) <;> simp [h]

theorem load_upgrades_eq_pipeFold (cid : ℕ) (pid : String) (s : Store) (us : List InUpgrade) :
    load_upgrades cid pid s us = pipeFold cid s (us.map (fun u => (pid, u))) := by
  induction us generalizing s with
  | nil => rfl
  | cons u us ih =>
    simp only [load_upgrades, List.foldl_cons, pipeFold, List.map_cons]
    rw [← load_upgrades, ← pipeFold, ih, loadOneUpgrade_eq_pipeStep]

theorem pipeFold_projects (cid : ℕ) (s : Store) (ops : List (String × InUpgrade)) :
    (pipeFold cid s ops).projects = s.projects := by
  induction ops generalizing s with
  | nil => rfl
  | cons o ops ih => simpa [pipeFold, List.foldl_cons] using ih (pipeStep cid s o)

theorem pipeStep_set_projects (cid : ℕ) (s : Store) (o : String × InUpgrade)
    (P : Table PKey ProjectRow) :
    pipeStep cid { s with projects := P } o = { pipeStep cid s o with projects := P } := rfl

theorem pipeFold_set_projects (cid : ℕ) (s : Store) (ops : List (String × InUpgrade))
    (P : Table PKey ProjectRow) :
    pipeFold cid { s with projects := P } ops = { pipeFold cid s ops with projects := P } := by
  induction ops generalizing s with
  | nil => rfl
  | cons o ops ih =>
    simp only [pipeFold, List.foldl_cons]
    rw [← pipeFold, ← pipeFold, pipeStep_set_projects, ih]

theorem ulOps_cons (r : InReport) (B : List InReport) :
    ulOps (r :: B) = r.upgrades.map (fun u => (r.project_id, u)) ++ ulOps B := by
  simp [ulOps]

theorem pipeFold_append (cid : ℕ) (s : Store) (a b : List (String × InUpgrade)) :
    pipeFold cid s (a ++ b) = pipeFold cid (pipeFold cid s a) b := by
  simp [pipeFold, List.foldl_append]

theorem pipeFold_upgpair (cid : ℕ) (s : Store) (ops : List (String × InUpgrade)) :
    ((pipeFold cid s ops).upgrades, (pipeFold cid s ops).nextUpgradeId) =
      upgFold cid (s.upgrades, s.nextUpgradeId) ops := by
  induction ops generalizing s with
  | nil => rfl
  | cons o ops ih =>
    show ((pipeFold cid (pipeStep cid s o) ops).upgrades,
      (pipeFold cid (pipeStep cid s o) ops).nextUpgradeId) = _
    rw [ih (pipeStep cid s o)]
    show upgFold cid ((upgStep cid (s.upgrades, s.nextUpgradeId) o.2).1,
      (upgStep cid (s.upgrades, s.nextUpgradeId) o.2).2) ops = _
    rw [Prod.mk.eta]
    rfl

theorem pipeFold_links (cid : ℕ) (s : Store) (ops : List (String × InUpgrade)) :
    (pipeFold cid s ops).links =
      linkFold cid s.links (linkOps cid (s.upgrades, s.nextUpgradeId) ops) := by
  induction ops generalizing s with
  | nil => rfl
  | cons o ops ih =>
    show (pipeFold cid (pipeStep cid s o) ops).links = _
    rw [ih (pipeStep cid s o)]
    show linkFold cid _ (linkOps cid ((upgStep cid (s.upgrades, s.nextUpgradeId) o.2).1,
      (upgStep cid (s.upgrades, s.nextUpgradeId) o.2).2) ops) = _
    rw [Prod.mk.eta]
    rfl

theorem loadReport_projects (cid : ℕ) (s : Store) (r : InReport) :
    (loadReport cid s r).projects =
      s.projects.upsert (r.project_id, cid) (projStep cid r) := by
  unfold loadReport
  rw [load_upgrades_eq_pipeFold, pipeFold_projects]
  rfl

theorem loadReport_upgpair (cid : ℕ) (s : Store) (r : InReport) :
    ((loadReport cid s r).upgrades, (loadReport cid s r).nextUpgradeId) =
      upgFold cid (s.upgrades, s.nextUpgradeId)
        (r.upgrades.map (fun u => (r.project_id, u))) := by
  unfold loadReport
  rw [load_upgrades_eq_pipeFold, pipeFold_upgpair]
  rfl

theorem loadReport_links (cid : ℕ) (s : Store) (r : InReport) :
    (loadReport cid s r).links =
      linkFold cid s.links (linkOps cid (s.upgrades, s.nextUpgradeId)
        (r.upgrades.map (fun u => (r.project_id, u)))) := by
  unfold loadReport
  rw [load_upgrades_eq_pipeFold, pipeFold_links]
  rfl

/-- The project table of a batch load is its own fold over the reports. -/
theorem loadBatch_projects (cid : ℕ) (s : Store) (B : List InReport) :
    (loadBatch cid s B).projects = projFold cid s.projects B := by
  induction B generalizing s with
  | nil => rfl
  | cons r B ih =>
    show (loadBatch cid (loadReport cid s r) B).projects = _
    rw [ih, loadReport_projects]
    rfl

/-- The upgrade table and serial counter of a batch load are the upgrade
fold over the flattened ops. -/
theorem loadBatch_upgpair (cid : ℕ) (s : Store) (B : List InReport) :
    ((loadBatch cid s B).upgrades, (loadBatch cid s B).nextUpgradeId) =
      upgFold cid (s.upgrades, s.nextUpgradeId) (ulOps B) := by
  induction B generalizing s with
  | nil => rfl
  | cons r B ih =>
    show ((loadBatch cid (loadReport cid s r) B).upgrades,
      (loadBatch cid (loadReport cid s r) B).nextUpgradeId) = _
    rw [ih, loadReport_upgpair, ulOps_cons]
    simp [upgFold, List.foldl_append]

theorem upgFold_append (cid : ℕ) (p : Table UKey UpgradeRow × ℕ)
    (a b : List (String × InUpgrade)) :
    upgFold cid p (a ++ b) = upgFold cid (upgFold cid p a) b := by
  simp [upgFold, List.foldl_append]

theorem linkOps_append (cid : ℕ) (p : Table UKey UpgradeRow × ℕ)
    (a b : List (String × InUpgrade)) :
    linkOps cid p (a ++ b) = linkOps cid p a ++ linkOps cid (upgFold cid p a) b := by
  induction a generalizing p with
  | nil => rfl
  | cons o a ih => simp [linkOps, ih, upgFold, List.foldl_cons]

theorem linkFold_append (cid : ℕ) (L : Table LKey LinkRow)
    (a b : List (String × ℕ × InUpgrade)) :
    linkFold cid L (a ++ b) = linkFold cid (linkFold cid L a) b := by
  simp [linkFold, List.foldl_append]

/-- The link table of a batch load is the link fold over the flattened
ops, with the ids assigned by the accompanying upgrade-table evolution. -/
theorem loadBatch_links (cid : ℕ) (s : Store) (B : List InReport) :
    (loadBatch cid s B).links =
      linkFold cid s.links (linkOps cid (s.upgrades, s.nextUpgradeId) (ulOps B)) := by
  induction B generalizing s with
  | nil => rfl
  | cons r B ih =>
    show (loadBatch cid (loadReport cid s r) B).links = _
    rw [ih, loadReport_links, loadReport_upgpair, ulOps_cons, linkOps_append,
      linkFold_append]

theorem coalesce_none_right {α : Type} (a : Option α) : coalesce a none = a := by
  cases a <;> rfl

theorem coalesce_assoc {α : Type} (a b c : Option α) :
    coalesce (coalesce a b) c = coalesce a (coalesce b c) := by
  cases a <;> rfl

theorem coalesce_idem {α : Type} (a : Option α) : coalesce a a = a := by
  cases a <;> rfl

theorem greatest_none_right (a : Option ℚ) : greatest a none = a := by
  cases a <;> rfl

theorem greatest_assoc (a b c : Option ℚ) :
    greatest (greatest a b) c = greatest a (greatest b c) := by
  cases a <;> cases b <;> cases c <;> simp [greatest, max_assoc]

theorem greatest_idem (a : Option ℚ) : greatest a a = a := by
  cases a <;> simp [greatest]

theorem coalesceFold_norm (l : List (Option String)) :
    ∀ a, coalesceFold a l = coalesce (coalesceFold none l) a := by
  induction l with
  | nil => intro a; simp [coalesceFold, coalesce]
  | cons v l ih =>
    intro a
    show coalesceFold (coalesce v a) l = coalesce (coalesceFold (coalesce v none) l) a
    rw [ih (coalesce v a), coalesce_none_right, ih v, coalesce_assoc]

theorem coalesceFold_replay (a : Option String) (l : List (Option String)) :
    coalesceFold (coalesceFold a l) l = coalesceFold a l := by
  rw [coalesceFold_norm l a, coalesceFold_norm l (coalesce (coalesceFold none l) a),
    ← coalesce_assoc, coalesce_idem]

theorem greatestFold_norm (l : List (Option ℚ)) :
    ∀ a, greatestFold a l = greatest (greatestFold none l) a := by
  induction l with
  | nil => intro a; cases a <;> rfl
  | cons v l ih =>
    intro a
    show greatestFold (greatest v a) l = greatest (greatestFold (greatest v none) l) a
    rw [ih (greatest v a), greatest_none_right, ih v, greatest_assoc]

theorem greatestFold_replay (a : Option ℚ) (l : List (Option ℚ)) :
    greatestFold (greatestFold a l) l = greatestFold a l := by
  rw [greatestFold_norm l a, greatestFold_norm l (greatest (greatestFold none l) a),
    ← greatest_assoc, greatest_idem]

/-- Last element of `vs`, defaulting to `a` when `vs` is empty. -/
def lastD {α : Type} (a : α) : List α → α
  | [] => a
  | v :: vs => lastD v vs

theorem projUpdate_lastD (a v : ProjectRow) (vs : List ProjectRow) (r : RiskFields) :
    ({ lastD (mergeProject a v) vs with risk := r } : ProjectRow) =
      { lastD v vs with risk := r } := by
  cases vs <;> rfl

theorem pchain_some (vs : List ProjectRow) :
    ∀ a, pchain (some a) vs = some { lastD a vs with risk := a.risk } := by
  induction vs with
  | nil => intro a; rfl
  | cons v vs ih =>
    intro a
    show pchain (some (mergeProject a v)) vs = _
    rw [ih (mergeProject a v)]
    exact congrArg some (projUpdate_lastD a v vs a.risk)

/-- Replaying the same per-key sequence of project upserts on its own
result is a no-op. -/
theorem pchain_replay (vs : List ProjectRow) :
    pchain (pchain none vs) vs = pchain none vs := by
  cases vs with
  | nil => rfl
  | cons v vs =>
    show pchain (pchain (some v) vs) (v :: vs) = pchain (some v) vs
    rw [pchain_some vs v]
    show pchain (some (mergeProject { lastD v vs with risk := v.risk } v)) vs = _
    rw [pchain_some vs (mergeProject { lastD v vs with risk := v.risk } v)]
    exact congrArg some
      (projUpdate_lastD { lastD v vs with risk := v.risk } v vs v.risk)

theorem mergeLink_lastD (a v : LinkRow) (vs : List LinkRow) :
    mergeLink a (lastD (mergeLink a v) vs) = mergeLink a (lastD v vs) := by
  cases vs <;> rfl

theorem lchain_some (vs : List LinkRow) :
    ∀ a, lchain (some a) vs = some (mergeLink a (lastD a vs)) := by
  induction vs with
  | nil => intro a; rfl
  | cons v vs ih =>
    intro a
    show lchain (some (mergeLink a v)) vs = _
    rw [ih (mergeLink a v)]
    exact congrArg some (mergeLink_lastD a v vs)

/-- Replaying the same per-key sequence of link upserts on its own
result is a no-op. -/
theorem lchain_replay (vs : List LinkRow) :
    lchain (lchain none vs) vs = lchain none vs := by
  cases vs with
  | nil => rfl
  | cons v vs =>
    show lchain (lchain (some v) vs) (v :: vs) = lchain (some v) vs
    rw [lchain_some vs v]
    show lchain (some (mergeLink (mergeLink v (lastD v vs)) v)) vs = _
    rw [lchain_some vs (mergeLink (mergeLink v (lastD v vs)) v)]
    exact congrArg some (mergeLink_lastD (mergeLink v (lastD v vs)) v vs)

theorem projFold_lookup (cid : ℕ) (B : List InReport) :
    ∀ (t : Table PKey ProjectRow) (k : PKey),
      (projFold cid t B).lookup k = pchain (t.lookup k) (projRowsAt cid k B) := by
  induction B with
  | nil => intro t k; rfl
  | cons r B ih =>
    intro t k
    show (projFold cid (t.upsert (r.project_id, cid) (projStep cid r)) B).lookup k = _
    rw [ih]
    by_cases h : ((r.project_id, cid) : PKey) = k
    · subst h
      rw [Table.lookup_upsert_self]
      have hrows : projRowsAt cid (r.project_id, cid) (r :: B)
          = newProjectRow cid r :: projRowsAt cid (r.project_id, cid) B := by
        simp [projRowsAt]
      rw [hrows]
      rfl
    · rw [Table.lookup_upsert_ne _ _ _ _ (Ne.symm h)]
      have hrows : projRowsAt cid k (r :: B) = projRowsAt cid k B := by
        simp [projRowsAt, List.filter_cons, h]
      rw [hrows]

theorem projFold_keys_of_present (cid : ℕ) (B : List InReport) :
    ∀ (t : Table PKey ProjectRow),
      (∀ r ∈ B, (t.lookup (r.project_id, cid)).isSome) →
      (projFold cid t B).keys = t.keys := by
  induction B with
  | nil => intro t _; rfl
  | cons r B ih =>
    intro t h
    show (projFold cid (t.upsert (r.project_id, cid) (projStep cid r)) B).keys = _
    have hsome := h r (by simp)
    have hkeys : (t.upsert (r.project_id, cid) (projStep cid r)).keys = t.keys := by
      rcases hl : t.lookup (r.project_id, cid) with _ | v
      · rw [hl] at hsome; simp at hsome
      · simp [Table.upsert, hl]
    rw [ih _ ?_, hkeys]
    intro r2 hr2
    rcases hl2 : t.lookup (r2.project_id, cid) with _ | v2
    · have := h r2 (by simp [hr2])
      rw [hl2] at this; simp at this
    · by_cases he : ((r2.project_id, cid) : PKey) = (r.project_id, cid)
      · rw [he, Table.lookup_upsert_self]; rfl
      · rw [Table.lookup_upsert_ne _ _ _ _ he, hl2]; rfl

theorem projFold_present (cid : ℕ) (B : List InReport) :
    ∀ (t : Table PKey ProjectRow) (r : InReport), r ∈ B →
      ((projFold cid t B).lookup (r.project_id, cid)).isSome := by
  intro t r hr
  rw [projFold_lookup]
  have hne : projRowsAt cid (r.project_id, cid) B ≠ [] := by
    simp only [projRowsAt, List.map_eq_nil_iff, Ne, List.filter_eq_nil_iff]
    intro hall
    have := hall r hr
    simp at this
  rcases hrows : projRowsAt cid (r.project_id, cid) B with _ | ⟨v, vs⟩
  · exact absurd hrows hne
  · show (pchain (some (projApplyRow v _)) vs).isSome
    rw [pchain_some]
    rfl

theorem linkFold_lookup (cid : ℕ) (los : List (String × ℕ × InUpgrade)) :
    ∀ (L : Table LKey LinkRow) (k : LKey),
      (linkFold cid L los).lookup k = lchain (L.lookup k) (linkRowsAt cid k los) := by
  induction los with
  | nil => intro L k; rfl
  | cons e los ih =>
    intro L k
    show (linkFold cid (L.upsert (e.1, e.2.1) (linkStep (newLinkRow cid e.1 e.2.1 e.2.2))) los).lookup k = _
    rw [ih]
    by_cases h : ((e.1, e.2.1) : LKey) = k
    · subst h
      rw [Table.lookup_upsert_self]
      have hrows : linkRowsAt cid (e.1, e.2.1) (e :: los)
          = newLinkRow cid e.1 e.2.1 e.2.2 :: linkRowsAt cid (e.1, e.2.1) los := by
        simp [linkRowsAt]
      rw [hrows]
      rfl
    · rw [Table.lookup_upsert_ne _ _ _ _ (Ne.symm h)]
      have hrows : linkRowsAt cid k (e :: los) = linkRowsAt cid k los := by
        simp [linkRowsAt, List.filter_cons, h]
      rw [hrows]

theorem linkFold_keys_of_present (cid : ℕ) (los : List (String × ℕ × InUpgrade)) :
    ∀ (L : Table LKey LinkRow),
      (∀ e ∈ los, (L.lookup (e.1, e.2.1)).isSome) →
      (linkFold cid L los).keys = L.keys := by
  induction los with
  | nil => intro L _; rfl
  | cons e los ih =>
    intro L h
    show (linkFold cid (L.upsert (e.1, e.2.1) (linkStep (newLinkRow cid e.1 e.2.1 e.2.2))) los).keys = _
    have hsome := h e (by simp)
    have hkeys : (L.upsert (e.1, e.2.1) (linkStep (newLinkRow cid e.1 e.2.1 e.2.2))).keys = L.keys := by
      rcases hl : L.lookup (e.1, e.2.1) with _ | v
      · rw [hl] at hsome; simp at hsome
      · simp [Table.upsert, hl]
    rw [ih _ ?_, hkeys]
    intro e2 he2
    by_cases he : ((e2.1, e2.2.1) : LKey) = (e.1, e.2.1)
    · rw [he, Table.lookup_upsert_self]; rfl
    · rw [Table.lookup_upsert_ne _ _ _ _ he]
      exact h e2 (by simp [he2])

theorem linkFold_present (cid : ℕ) (los : List (String × ℕ × InUpgrade)) :
    ∀ (L : Table LKey LinkRow) (e : String × ℕ × InUpgrade), e ∈ los →
      ((linkFold cid L los).lookup (e.1, e.2.1)).isSome := by
  intro L e he
  rw [linkFold_lookup]
  rcases hrows : linkRowsAt cid (e.1, e.2.1) los with _ | ⟨v, vs⟩
  · exfalso
    rw [linkRowsAt, List.map_eq_nil_iff, List.filter_eq_nil_iff] at hrows
    have := hrows e he
    simp at this
  · show (lchain (some (linkStep v _)) vs).isSome
    rw [lchain_some]
    rfl

/-- Replaying a per-key-identical batch of link upserts on the table it
produced from empty is a no-op. -/
theorem linkFold_replay (cid : ℕ) (los : List (String × ℕ × InUpgrade)) :
    linkFold cid (linkFold cid Table.empty los) los = linkFold cid Table.empty los := by
  apply Table.ext_of
  · intro k
    rw [linkFold_lookup, linkFold_lookup]
    show lchain (lchain none (linkRowsAt cid k los)) (linkRowsAt cid k los) =
      lchain none (linkRowsAt cid k los)
    rw [lchain_replay]
  · exact linkFold_keys_of_present cid los _ (fun e he => linkFold_present cid los _ e he)

/-- Replaying a batch of project upserts on the table it produced from
empty is a no-op. -/
theorem projFold_replay (cid : ℕ) (B : List InReport) :
    projFold cid (projFold cid Table.empty B) B = projFold cid Table.empty B := by
  apply Table.ext_of
  · intro k
    rw [projFold_lookup, projFold_lookup]
    show pchain (pchain none (projRowsAt cid k B)) (projRowsAt cid k B) =
      pchain none (projRowsAt cid k B)
    rw [pchain_replay]
  · exact projFold_keys_of_present cid B _ (fun r hr => projFold_present cid B Table.empty r hr)

theorem upsAt_cons_pos (cid : ℕ) (k : UKey) (o : String × InUpgrade)
    (ops : List (String × InUpgrade)) (h : ukeyOf cid o.2 = k) :
    upsAt cid k (o :: ops) = o.2 :: upsAt cid k ops := by
  simp [upsAt, List.filter_cons, h]

theorem upsAt_cons_neg (cid : ℕ) (k : UKey) (o : String × InUpgrade)
    (ops : List (String × InUpgrade)) (h : ¬(ukeyOf cid o.2 = k)) :
    upsAt cid k (o :: ops) = upsAt cid k ops := by
  simp [upsAt, List.filter_cons, h]

theorem coalesceFold_cons_none (v : Option String) (l : List (Option String)) :
    coalesceFold none (v :: l) = coalesceFold v l := by
  show coalesceFold (coalesce v none) l = _
  rw [coalesce_none_right]

theorem greatestFold_cons_none (v : Option ℚ) (l : List (Option ℚ)) :
    greatestFold none (v :: l) = greatestFold v l := by
  show greatestFold (greatest v none) l = _
  rw [greatest_none_right]

/-- Per-key characterization of the upgrade fold: an untouched key keeps
its row; an existing row keeps its identity fields while utility, title
and total cost evolve by the `COALESCE`/`GREATEST` chains of the ops at
the key; an absent key receives a fresh row (with some serial id) whose
value fields are the same chains started from NULL. -/
theorem upgFold_lookup (cid : ℕ) (ops : List (String × InUpgrade)) :
    ∀ (t : Table UKey UpgradeRow) (n : ℕ) (k : UKey),
      (upsAt cid k ops = [] → (upgFold cid (t, n) ops).1.lookup k = t.lookup k) ∧
      (∀ ex, t.lookup k = some ex →
        (upgFold cid (t, n) ops).1.lookup k = some
          { ex with
            utility := coalesceFold ex.utility ((upsAt cid k ops).map (fun u => u.utility)),
            title := coalesceFold ex.title ((upsAt cid k ops).map (fun u => u.title)),
            total_cost := greatestFold ex.total_cost
              ((upsAt cid k ops).map (fun u => u.total_cost)) }) ∧
      (t.lookup k = none → upsAt cid k ops ≠ [] →
        ∃ m, (upgFold cid (t, n) ops).1.lookup k = some
          { id := m, cluster_id := k.1,
            rtep_id := k.2.1, to_id := k.2.2, shared_by_count := 0,
            utility := coalesceFold none ((upsAt cid k ops).map (fun u => u.utility)),
            title := coalesceFold none ((upsAt cid k ops).map (fun u => u.title)),
            total_cost := greatestFold none
              ((upsAt cid k ops).map (fun u => u.total_cost)) }) := by
  induction ops with
  | nil =>
    intro t n k
    refine ⟨fun _ => rfl, fun ex hex => ?_, fun hnone hne => absurd rfl hne⟩
    show t.lookup k = _
    rw [hex]
    rfl
  | cons o ops ih =>
    intro t n k
    by_cases hk : ukeyOf cid o.2 = k
    · subst hk
      rcases hl : t.lookup (ukeyOf cid o.2) with _ | ex
      · -- fresh key: insert branch
        have hstep : upgFold cid (t, n) (o :: ops)
            = upgFold cid (t.upsert (ukeyOf cid o.2)
                (fun _ => newUpgradeRow cid n o.2), n + 1) ops := by
          show upgFold cid (upgStep cid (t, n) o.2) ops = _
          rw [upgStep]
          simp only [hl]
        refine ⟨fun hemp => ?_, fun ex2 hex2 => ?_, fun _ _ => ?_⟩
        · rw [upsAt_cons_pos cid _ o ops rfl] at hemp
          exact absurd hemp (by simp)
        · exact absurd hex2 (by simp)
        · refine ⟨n, ?_⟩
          rw [hstep]
          have h2 := (ih (t.upsert (ukeyOf cid o.2) (fun _ => newUpgradeRow cid n o.2))
            (n + 1) (ukeyOf cid o.2)).2.1 (newUpgradeRow cid n o.2)
            (by rw [Table.lookup_upsert_self])
          rw [h2, upsAt_cons_pos cid _ o ops rfl, List.map_cons, List.map_cons, List.map_cons,
            coalesceFold_cons_none, coalesceFold_cons_none, greatestFold_cons_none]
          rfl
      · -- existing key: merge branch
        have hstep : upgFold cid (t, n) (o :: ops)
            = upgFold cid (t.upsert (ukeyOf cid o.2)
                (fun _ => mergeUpgrade ex o.2), n) ops := by
          show upgFold cid (upgStep cid (t, n) o.2) ops = _
          rw [upgStep]
          simp only [hl]
        refine ⟨fun hemp => ?_, fun ex2 hex2 => ?_, fun hnone _ => ?_⟩
        · rw [upsAt_cons_pos cid _ o ops rfl] at hemp
          exact absurd hemp (by simp)
        · injection hex2 with hex2
          subst hex2
          rw [hstep]
          have h2 := (ih (t.upsert (ukeyOf cid o.2) (fun _ => mergeUpgrade ex o.2))
            n (ukeyOf cid o.2)).2.1 (mergeUpgrade ex o.2)
            (by rw [Table.lookup_upsert_self])
          rw [h2, upsAt_cons_pos cid _ o ops rfl, List.map_cons, List.map_cons, List.map_cons]
          rfl
        · exact absurd hnone (by simp)
    · -- other keys are untouched by this op
      have hne2 : k ≠ ukeyOf cid o.2 := fun he => hk he.symm
      have hups := upsAt_cons_neg cid k o ops hk
      rcases hl : t.lookup (ukeyOf cid o.2) with _ | ex
      · have hstep : upgFold cid (t, n) (o :: ops)
            = upgFold cid (t.upsert (ukeyOf cid o.2)
                (fun _ => newUpgradeRow cid n o.2), n + 1) ops := by
          show upgFold cid (upgStep cid (t, n) o.2) ops = _
          rw [upgStep]
          simp only [hl]
        have hlk : (t.upsert (ukeyOf cid o.2) (fun _ => newUpgradeRow cid n o.2)).lookup k
            = t.lookup k := Table.lookup_upsert_ne _ _ _ _ hne2
        refine ⟨fun hemp => ?_, fun ex2 hex2 => ?_, fun hnone hne => ?_⟩
        · rw [hstep, (ih _ _ k).1 (by rw [hups] at hemp; exact hemp), hlk]
        · rw [hstep, (ih _ _ k).2.1 ex2 (by rw [hlk, hex2]), hups]
        · rw [hups] at hne
          obtain ⟨m, hm⟩ := (ih (t.upsert (ukeyOf cid o.2)
            (fun _ => newUpgradeRow cid n o.2)) (n + 1) k).2.2 (by rw [hlk, hnone]) hne
          exact ⟨m, by rw [hstep, hm, hups]⟩
      · have hstep : upgFold cid (t, n) (o :: ops)
            = upgFold cid (t.upsert (ukeyOf cid o.2)
                (fun _ => mergeUpgrade ex o.2), n) ops := by
          show upgFold cid (upgStep cid (t, n) o.2) ops = _
          rw [upgStep]
          simp only [hl]
        have hlk : (t.upsert (ukeyOf cid o.2) (fun _ => mergeUpgrade ex o.2)).lookup k
            = t.lookup k := Table.lookup_upsert_ne _ _ _ _ hne2
        refine ⟨fun hemp => ?_, fun ex2 hex2 => ?_, fun hnone hne => ?_⟩
        · rw [hstep, (ih _ _ k).1 (by rw [hups] at hemp; exact hemp), hlk]
        · rw [hstep, (ih _ _ k).2.1 ex2 (by rw [hlk, hex2]), hups]
        · rw [hups] at hne
          obtain ⟨m, hm⟩ := (ih (t.upsert (ukeyOf cid o.2)
            (fun _ => mergeUpgrade ex o.2)) n k).2.2 (by rw [hlk, hnone]) hne
          exact ⟨m, by rw [hstep, hm, hups]⟩

theorem upsAt_ne_nil_of_mem (cid : ℕ) (ops : List (String × InUpgrade))
    (o : String × InUpgrade) (ho : o ∈ ops) : upsAt cid (ukeyOf cid o.2) ops ≠ [] := by
  simp only [upsAt, Ne, List.map_eq_nil_iff, List.filter_eq_nil_iff]
  intro hall
  have := hall o ho
  simp at this

theorem upgFold_present (cid : ℕ) (ops : List (String × InUpgrade))
    (t : Table UKey UpgradeRow) (n : ℕ) (o : String × InUpgrade) (ho : o ∈ ops) :
    ((upgFold cid (t, n) ops).1.lookup (ukeyOf cid o.2)).isSome := by
  have h := upgFold_lookup cid ops t n (ukeyOf cid o.2)
  rcases hl : t.lookup (ukeyOf cid o.2) with _ | ex
  · obtain ⟨m, hm⟩ := h.2.2 hl (upsAt_ne_nil_of_mem cid ops o ho)
    rw [hm]; rfl
  · rw [h.2.1 ex hl]; rfl

theorem upgStep_present_mono (cid : ℕ) (p : Table UKey UpgradeRow × ℕ) (u : InUpgrade)
    (q : UKey) (h : (p.1.lookup q).isSome) : ((upgStep cid p u).1.lookup q).isSome := by
  unfold upgStep
  rcases hl : p.1.lookup (ukeyOf cid u) with _ | ex <;>
    by_cases hq : q = ukeyOf cid u
  · subst hq; simp [Table.lookup_upsert_self]
  · simp only [Table.lookup_upsert_ne _ _ _ _ hq]; exact h
  · subst hq; simp [Table.lookup_upsert_self]
  · simp only [Table.lookup_upsert_ne _ _ _ _ hq]; exact h

theorem upgFold_keys_counter_of_present (cid : ℕ) (ops : List (String × InUpgrade)) :
    ∀ (t : Table UKey UpgradeRow) (n : ℕ),
      (∀ o ∈ ops, (t.lookup (ukeyOf cid o.2)).isSome) →
      (upgFold cid (t, n) ops).1.keys = t.keys ∧ (upgFold cid (t, n) ops).2 = n := by
  induction ops with
  | nil => intro t n _; exact ⟨rfl, rfl⟩
  | cons o ops ih =>
    intro t n h
    have hsome := h o (by simp)
    rcases hl : t.lookup (ukeyOf cid o.2) with _ | ex
    · rw [hl] at hsome; simp at hsome
    · have hstep : upgFold cid (t, n) (o :: ops)
          = upgFold cid (t.upsert (ukeyOf cid o.2) (fun _ => mergeUpgrade ex o.2), n) ops := by
        show upgFold cid (upgStep cid (t, n) o.2) ops = _
        rw [upgStep]
        simp only [hl]
      have hkeys : (t.upsert (ukeyOf cid o.2) (fun _ => mergeUpgrade ex o.2)).keys = t.keys := by
        simp [Table.upsert, hl]
      have hpres : ∀ o2 ∈ ops,
          ((t.upsert (ukeyOf cid o.2) (fun _ => mergeUpgrade ex o.2)).lookup
            (ukeyOf cid o2.2)).isSome := by
        intro o2 ho2
        by_cases hq : ukeyOf cid o2.2 = ukeyOf cid o.2
        · rw [hq, Table.lookup_upsert_self]; rfl
        · rw [Table.lookup_upsert_ne _ _ _ _ hq]
          exact h o2 (by simp [ho2])
      obtain ⟨h1, h2⟩ := ih _ n hpres
      rw [hstep]
      exact ⟨by rw [h1, hkeys], h2⟩

theorem upgStep_id_stable (cid : ℕ) (p : Table UKey UpgradeRow × ℕ) (u : InUpgrade)
    (q : UKey) (h : (p.1.lookup q).isSome) :
    ((upgStep cid p u).1.lookup q).map (fun r => r.id) = (p.1.lookup q).map (fun r => r.id) := by
  unfold upgStep
  rcases hl : p.1.lookup (ukeyOf cid u) with _ | ex <;> by_cases hq : q = ukeyOf cid u
  · subst hq; rw [hl] at h; simp at h
  · simp only [Table.lookup_upsert_ne _ _ _ _ hq]
  · subst hq
    simp only [Table.lookup_upsert_self, hl]
    rfl
  · simp only [Table.lookup_upsert_ne _ _ _ _ hq]

theorem upgFold_id_stable (cid : ℕ) (ops : List (String × InUpgrade)) :
    ∀ (p : Table UKey UpgradeRow × ℕ) (q : UKey), (p.1.lookup q).isSome →
      ((upgFold cid p ops).1.lookup q).map (fun r => r.id)
        = (p.1.lookup q).map (fun r => r.id) := by
  induction ops with
  | nil => intro p q _; rfl
  | cons o ops ih =>
    intro p q h
    show ((upgFold cid (upgStep cid p o.2) ops).1.lookup q).map _ = _
    rw [ih (upgStep cid p o.2) q (upgStep_present_mono cid p o.2 q h),
      upgStep_id_stable cid p o.2 q h]

theorem uidAt_after_step (cid : ℕ) (p : Table UKey UpgradeRow × ℕ) (u : InUpgrade) :
    ((upgStep cid p u).1.lookup (ukeyOf cid u)).map (fun r => r.id)
      = some (uidAt cid p u) := by
  unfold upgStep uidAt
  rcases hl : p.1.lookup (ukeyOf cid u) with _ | ex <;>
    simp only [Table.lookup_upsert_self] <;> rfl

theorem uidTrace_eq_final (cid : ℕ) (ops : List (String × InUpgrade)) :
    ∀ (p : Table UKey UpgradeRow × ℕ),
      uidTrace cid p ops
        = ops.map (fun o => idOfTable (upgFold cid p ops).1 (ukeyOf cid o.2)) := by
  induction ops with
  | nil => intro p; rfl
  | cons o ops ih =>
    intro p
    show uidAt cid p o.2 :: uidTrace cid (upgStep cid p o.2) ops = _
    rw [ih (upgStep cid p o.2)]
    have hpres : ((upgStep cid p o.2).1.lookup (ukeyOf cid o.2)).isSome := by
      have := uidAt_after_step cid p o.2
      rcases hl : (upgStep cid p o.2).1.lookup (ukeyOf cid o.2) with _ | r
      · rw [hl] at this; simp at this
      · rfl
    have hid := upgFold_id_stable cid ops (upgStep cid p o.2) (ukeyOf cid o.2) hpres
    rw [uidAt_after_step cid p o.2] at hid
    show _ = idOfTable (upgFold cid (upgStep cid p o.2) ops).1 (ukeyOf cid o.2)
      :: ops.map (fun o2 => idOfTable (upgFold cid (upgStep cid p o.2) ops).1 (ukeyOf cid o2.2))
    have hhead : idOfTable (upgFold cid (upgStep cid p o.2) ops).1 (ukeyOf cid o.2)
        = uidAt cid p o.2 := by
      unfold idOfTable
      rw [hid]
      rfl
    rw [hhead]

theorem linkOps_eq_zip (cid : ℕ) (ops : List (String × InUpgrade)) :
    ∀ (p : Table UKey UpgradeRow × ℕ),
      linkOps cid p ops = List.zipWith (fun o m => (o.1, m, o.2)) ops (uidTrace cid p ops) := by
  induction ops with
  | nil => intro p; rfl
  | cons o ops ih =>
    intro p
    show (o.1, uidAt cid p o.2, o.2) :: linkOps cid (upgStep cid p o.2) ops = _
    rw [ih (upgStep cid p o.2)]
    rfl

/-- Replaying a batch of upgrade upserts on the table-and-counter pair it
produced from an empty table is a no-op. -/
theorem upgFold_replay (cid n₀ : ℕ) (ops : List (String × InUpgrade)) :
    upgFold cid (upgFold cid (Table.empty, n₀) ops) ops
      = upgFold cid (Table.empty, n₀) ops := by
  have hpres : ∀ o ∈ ops,
      ((upgFold cid (Table.empty, n₀) ops).1.lookup (ukeyOf cid o.2)).isSome :=
    fun o ho => upgFold_present cid ops Table.empty n₀ o ho
  have hkc := upgFold_keys_counter_of_present cid ops
    (upgFold cid (Table.empty, n₀) ops).1 (upgFold cid (Table.empty, n₀) ops).2 hpres
  rw [Prod.mk.eta] at hkc
  apply Prod.ext
  · apply Table.ext_of
    · intro k
      rcases hv : upsAt cid k ops with _ | ⟨u, us⟩
      · have h1 := (upgFold_lookup cid ops (upgFold cid (Table.empty, n₀) ops).1
          (upgFold cid (Table.empty, n₀) ops).2 k).1 hv
        rw [Prod.mk.eta] at h1
        exact h1
      · obtain ⟨m, hm⟩ := (upgFold_lookup cid ops Table.empty n₀ k).2.2 rfl
          (by rw [hv]; simp)
        have h2 := (upgFold_lookup cid ops (upgFold cid (Table.empty, n₀) ops).1
          (upgFold cid (Table.empty, n₀) ops).2 k).2.1 _ hm
        rw [Prod.mk.eta] at h2
        rw [h2, hm]
        simp only [coalesceFold_replay, greatestFold_replay]
    · exact hkc.1
  · exact hkc.2

theorem tableWF_empty {κ ρ : Type} : TableWF (Table.empty : Table κ ρ) := by
  refine ⟨List.nodup_nil, fun k => ?_⟩
  simp [Table.empty]

theorem tableWF_upsert {κ ρ : Type} [DecidableEq κ] (t : Table κ ρ) (k : κ)
    (f : Option ρ → ρ) (h : TableWF t) : TableWF (t.upsert k f) := by
  obtain ⟨hn, hm⟩ := h
  rcases hl : t.lookup k with _ | v
  · have hknot : k ∉ t.keys := by
      intro hk
      have := (hm k).2 hk
      rw [hl] at this
      simp at this
    have hkeys : (t.upsert k f).keys = t.keys ++ [k] := by simp [Table.upsert, hl]
    refine ⟨?_, fun q => ?_⟩
    · rw [hkeys]
      refine List.Nodup.append hn (List.nodup_singleton k) ?_
      intro a ha hb
      rw [List.mem_singleton] at hb
      exact hknot (hb ▸ ha)
    · rw [hkeys, List.mem_append, List.mem_singleton]
      by_cases hq : q = k
      · subst hq
        rw [Table.lookup_upsert_self]
        simp
      · rw [Table.lookup_upsert_ne _ _ _ _ hq, hm q]
        simp [hq]
  · have hkin : k ∈ t.keys := by
      have := (hm k).1
      rw [hl] at this
      exact this rfl
    have hkeys : (t.upsert k f).keys = t.keys := by simp [Table.upsert, hl]
    refine ⟨by rw [hkeys]; exact hn, fun q => ?_⟩
    rw [hkeys]
    by_cases hq : q = k
    · subst hq
      rw [Table.lookup_upsert_self]
      simp [hkin]
    · rw [Table.lookup_upsert_ne _ _ _ _ hq, hm q]

theorem tableWF_projFold (cid : ℕ) (B : List InReport) :
    ∀ (t : Table PKey ProjectRow), TableWF t → TableWF (projFold cid t B) := by
  induction B with
  | nil => intro t h; exact h
  | cons r B ih =>
    intro t h
    exact ih _ (tableWF_upsert _ _ _ h)

theorem tableWF_upgFold (cid : ℕ) (ops : List (String × InUpgrade)) :
    ∀ (p : Table UKey UpgradeRow × ℕ), TableWF p.1 → TableWF (upgFold cid p ops).1 := by
  induction ops with
  | nil => intro p h; exact h
  | cons o ops ih =>
    intro p h
    show TableWF (upgFold cid (upgStep cid p o.2) ops).1
    apply ih
    unfold upgStep
    rcases hl : p.1.lookup (ukeyOf cid o.2) with _ | ex
    · exact tableWF_upsert _ _ _ h
    · exact tableWF_upsert _ _ _ h

theorem tableWF_linkFold (cid : ℕ) (los : List (String × ℕ × InUpgrade)) :
    ∀ (L : Table LKey LinkRow), TableWF L → TableWF (linkFold cid L los) := by
  induction los with
  | nil => intro L h; exact h
  | cons e los ih =>
    intro L h
    exact ih _ (tableWF_upsert _ _ _ h)

theorem Store.ext_of_parts {s₁ s₂ : Store} (h1 : s₁.projects = s₂.projects)
    (h2 : s₁.upgrades = s₂.upgrades) (h3 : s₁.links = s₂.links)
    (h4 : s₁.nextUpgradeId = s₂.nextUpgradeId) : s₁ = s₂ := by
  cases s₁; cases s₂
  simp only [Store.mk.injEq]
  exact ⟨h1, h2, h3, h4⟩

/-- C1.  Loading the same batch of scraped reports twice into an empty
store yields exactly the same end state as loading it once — the same
project, upgrade and link tables row for row — and the loaded store has
no duplicated rows: each table's key list is duplicate-free and lists
exactly the keys holding a row. -/
theorem C1_load_batch_idempotent (cid : ℕ) (B : List InReport) :
    loadBatch cid (loadBatch cid Store.empty B) B = loadBatch cid Store.empty B ∧
    TableWF (loadBatch cid Store.empty B).projects ∧
    TableWF (loadBatch cid Store.empty B).upgrades ∧
    TableWF (loadBatch cid Store.empty B).links := by
  have hp1 : ((loadBatch cid Store.empty B).upgrades,
      (loadBatch cid Store.empty B).nextUpgradeId)
      = upgFold cid (Table.empty, 1) (ulOps B) := loadBatch_upgpair cid Store.empty B
  have hl1 : (loadBatch cid Store.empty B).links
      = linkFold cid Table.empty (linkOps cid (Table.empty, 1) (ulOps B)) :=
    loadBatch_links cid Store.empty B
  have hproj1 : (loadBatch cid Store.empty B).projects = projFold cid Table.empty B :=
    loadBatch_projects cid Store.empty B
  have hops : linkOps cid ((loadBatch cid Store.empty B).upgrades,
      (loadBatch cid Store.empty B).nextUpgradeId) (ulOps B)
      = linkOps cid (Table.empty, 1) (ulOps B) := by
    rw [hp1]
    simp only [linkOps_eq_zip, uidTrace_eq_final]
    rw [upgFold_replay]
  have hp2 : ((loadBatch cid (loadBatch cid Store.empty B) B).upgrades,
      (loadBatch cid (loadBatch cid Store.empty B) B).nextUpgradeId)
      = ((loadBatch cid Store.empty B).upgrades,
          (loadBatch cid Store.empty B).nextUpgradeId) := by
    have h := loadBatch_upgpair cid (loadBatch cid Store.empty B) B
    rw [hp1, upgFold_replay, ← hp1] at h
    exact h
  refine ⟨Store.ext_of_parts ?_ (congrArg Prod.fst hp2) ?_ (congrArg Prod.snd hp2), ?_, ?_, ?_⟩
  · rw [loadBatch_projects cid (loadBatch cid Store.empty B) B, hproj1, projFold_replay]
  · rw [loadBatch_links cid (loadBatch cid Store.empty B) B, hops, hl1, linkFold_replay]
  · rw [hproj1]
    exact tableWF_projFold cid B Table.empty tableWF_empty
  · have hup : (loadBatch cid Store.empty B).upgrades
        = (upgFold cid (Table.empty, 1) (ulOps B)).1 := congrArg Prod.fst hp1
    rw [hup]
    exact tableWF_upgFold cid (ulOps B) (Table.empty, 1) tableWF_empty
  · rw [hl1]
    exact tableWF_linkFold cid _ Table.empty tableWF_empty

theorem lastD_mem {α : Type} (vs : List α) : ∀ v : α, lastD v vs ∈ v :: vs := by
  induction vs with
  | nil => intro v; exact List.mem_singleton_self v
  | cons w ws ih =>
    intro v
    show lastD w ws ∈ v :: w :: ws
    exact List.mem_cons_of_mem v (ih w)

theorem mem_linkRowsAt (cid : ℕ) (k : LKey) (los : List (String × ℕ × InUpgrade))
    (x : LinkRow) (hx : x ∈ linkRowsAt cid k los) :
    ∃ e, e ∈ los ∧ ((e.1, e.2.1) : LKey) = k ∧ x = newLinkRow cid e.1 e.2.1 e.2.2 := by
  simp only [linkRowsAt, List.mem_map, List.mem_filter, decide_eq_true_eq] at hx
  obtain ⟨e, ⟨he, hk⟩, hxe⟩ := hx
  exact ⟨e, he, hk, hxe.symm⟩

theorem mem_linkOps (cid : ℕ) (ops : List (String × InUpgrade)) :
    ∀ (p : Table UKey UpgradeRow × ℕ) (e : String × ℕ × InUpgrade), e ∈ linkOps cid p ops →
      ∃ o, o ∈ ops ∧ e.1 = o.1 ∧ e.2.2 = o.2 := by
  induction ops with
  | nil => intro p e he; simp [linkOps] at he
  | cons o ops ih =>
    intro p e he
    rcases List.mem_cons.mp he with he | he
    · subst he
      exact ⟨o, by simp, rfl, rfl⟩
    · obtain ⟨o2, ho2, h1, h2⟩ := ih (upgStep cid p o.2) e he
      exact ⟨o2, by simp [ho2], h1, h2⟩

theorem mem_ulOps (B : List InReport) (o : String × InUpgrade) (ho : o ∈ ulOps B) :
    ∃ r, r ∈ B ∧ o.1 = r.project_id ∧ o.2 ∈ r.upgrades := by
  simp only [ulOps, List.mem_flatMap, List.mem_map] at ho
  obtain ⟨r, hr, u, hu, hou⟩ := ho
  refine ⟨r, hr, ?_, ?_⟩
  · rw [← hou]
  · rw [← hou]; exact hu

/-- C10.  Every persisted link row originates from an entry of a
report's upgrade-summary list: the loader never reads the scraper's
`project_upgrade_links` records, and every link row stored by a batch
load from empty is keyed to its report's own project id, carries the
link type and allocated cost derived from an entry of that report's
`upgrades` list, and has no percent allocation. -/
theorem C10_links_from_upgrade_summaries :
    (∀ (cid : ℕ) (s : Store) (r : InReport) (L : List InLink),
      loadReport cid s { r with project_upgrade_links := L } = loadReport cid s r) ∧
    (∀ (cid : ℕ) (B : List InReport) (k : LKey) (row : LinkRow),
      (loadBatch cid Store.empty B).links.lookup k = some row →
      row.percent_allocation = none ∧ row.project_id = k.1 ∧ row.cluster_id = cid ∧
      ∃ r, r ∈ B ∧ ∃ u, u ∈ r.upgrades ∧ row.project_id = r.project_id ∧
        row.link_type = (if 0 < orZero u.allocated_cost then LinkType.COST_ALLOCATED
          else LinkType.TAGGED_NO_COST) ∧
        row.allocated_cost = zeroToNull (orZero u.allocated_cost)) := by
  constructor
  · intro cid s r L
    rfl
  · intro cid B k row hrow
    have hl1 : (loadBatch cid Store.empty B).links
        = linkFold cid Table.empty (linkOps cid (Table.empty, 1) (ulOps B)) :=
      loadBatch_links cid Store.empty B
    rw [hl1, linkFold_lookup] at hrow
    rcases hrows : linkRowsAt cid k (linkOps cid (Table.empty, 1) (ulOps B)) with _ | ⟨v, vs⟩
    · rw [hrows] at hrow
      exact absurd hrow (by simp [lchain, Table.empty])
    · rw [hrows] at hrow
      have hrow2 : lchain (some v) vs = some row := hrow
      rw [lchain_some] at hrow2
      injection hrow2 with hrow2
      have hv : v ∈ linkRowsAt cid k (linkOps cid (Table.empty, 1) (ulOps B)) := by
        rw [hrows]; simp
      have hw : lastD v vs ∈ linkRowsAt cid k (linkOps cid (Table.empty, 1) (ulOps B)) := by
        rw [hrows]; exact lastD_mem vs v
      obtain ⟨ev, hev, hkv, hvrow⟩ := mem_linkRowsAt cid k _ v hv
      obtain ⟨ew, hew, hkw, hwrow⟩ := mem_linkRowsAt cid k _ (lastD v vs) hw
      obtain ⟨ov, hov, hov1, hov2⟩ := mem_linkOps cid (ulOps B) (Table.empty, 1) ev hev
      obtain ⟨ow, how, how1, how2⟩ := mem_linkOps cid (ulOps B) (Table.empty, 1) ew hew
      obtain ⟨rw2, hrw2, hrwid, hrwu⟩ := mem_ulOps B ow how
      subst hrow2
      refine ⟨?_, ?_, ?_, rw2, hrw2, ow.2, hrwu, ?_, ?_⟩
      · show v.percent_allocation = none
        rw [hvrow]; rfl
      · show v.project_id = k.1
        rw [hvrow, ← hkv]; rfl
      · show v.cluster_id = cid
        rw [hvrow]; rfl
      · show v.project_id = rw2.project_id
        rw [hvrow]
        show ev.1 = rw2.project_id
        have : ev.1 = k.1 := by rw [← hkv]
        rw [this, ← hkw]
        show ew.1 = rw2.project_id
        rw [how1, hrwid]
      · show (lastD v vs).link_type = _ ∧ (lastD v vs).allocated_cost = _
        rw [hwrow, how2]
        exact ⟨rfl, rfl⟩

/-- Closed-instance witness for the provenance half of
`C10_links_from_upgrade_summaries`, at a one-report batch whose single
upgrade carries allocated cost 100. -/
theorem C10_links_from_upgrade_summaries_witness :
    (⟨"P1", 1, 5, LinkType.COST_ALLOCATED, some 100, none⟩ : LinkRow).percent_allocation
        = none ∧
      (⟨"P1", 1, 5, LinkType.COST_ALLOCATED, some 100, none⟩ : LinkRow).project_id
        = (("P1", 1) : LKey).1 ∧
      (⟨"P1", 1, 5, LinkType.COST_ALLOCATED, some 100, none⟩ : LinkRow).cluster_id = 5 ∧
      ∃ r, r ∈ [(⟨"P1", none, ⟨none, none, none, none, none, none, none, none⟩,
          ⟨none, none, none, none, none⟩, ⟨none, none⟩,
          [⟨"n1", "T1", none, none, none, some 100⟩], []⟩ : InReport)] ∧
        ∃ u, u ∈ r.upgrades ∧
          (⟨"P1", 1, 5, LinkType.COST_ALLOCATED, some 100, none⟩ : LinkRow).project_id
            = r.project_id ∧
          (⟨"P1", 1, 5, LinkType.COST_ALLOCATED, some 100, none⟩ : LinkRow).link_type
            = (if 0 < orZero u.allocated_cost then LinkType.COST_ALLOCATED
              else LinkType.TAGGED_NO_COST) ∧
          (⟨"P1", 1, 5, LinkType.COST_ALLOCATED, some 100, none⟩ : LinkRow).allocated_cost
            = zeroToNull (orZero u.allocated_cost) :=
  C10_links_from_upgrade_summaries.2 5
    [⟨"P1", none, ⟨none, none, none, none, none, none, none, none⟩,
      ⟨none, none, none, none, none⟩, ⟨none, none⟩,
      [⟨"n1", "T1", none, none, none, some 100⟩], []⟩]
    ("P1", 1) ⟨"P1", 1, 5, LinkType.COST_ALLOCATED, some 100, none⟩ (by decide)

theorem Table.lookup_mapRows {κ ρ : Type} (t : Table κ ρ) (f : κ → ρ → ρ) (k : κ) :
    (t.mapRows f).lookup k = (t.lookup k).map (f k) := rfl

theorem countP_lt_of_mem {α : Type} (l : List α) (p q : α → Bool)
    (hpq : ∀ x ∈ l, p x = true → q x = true) (a : α) (ha : a ∈ l)
    (hqa : q a = true) (hpa : p a = false) : l.countP p < l.countP q := by
  induction l with
  | nil => cases ha
  | cons x l ih =>
    rw [List.countP_cons, List.countP_cons]
    rcases List.mem_cons.mp ha with rfl | ha2
    · rw [hqa, hpa]
      have hle : l.countP p ≤ l.countP q :=
        List.countP_mono_left (fun x hx => hpq x (List.mem_cons_of_mem _ hx))
      simp only [Bool.false_eq_true, if_false, if_pos]
      omega
    · have hlt := ih (fun y hy => hpq y (List.mem_cons_of_mem _ hy)) ha2
      have hx : (if p x = true then 1 else 0) ≤ (if q x = true then 1 else 0) := by
        by_cases hp : p x = true
        · rw [if_pos hp, if_pos (hpq x (List.mem_cons_self x l) hp)]
        · rw [if_neg hp]
          omega
      omega

theorem mem_projRowsAt (cid : ℕ) (k : PKey) (B : List InReport) (x : ProjectRow)
    (hx : x ∈ projRowsAt cid k B) :
    ∃ r, r ∈ B ∧ ((r.project_id, cid) : PKey) = k ∧ x = newProjectRow cid r := by
  simp only [projRowsAt, List.mem_map, List.mem_filter, decide_eq_true_eq] at hx
  obtain ⟨r, ⟨hr, hk⟩, hxr⟩ := hx
  exact ⟨r, hr, hk, hxr.symm⟩

/-- Every project row a batch load from empty stores still has the
database defaults in its risk columns (the loader never writes them). -/
theorem loadBatch_project_risk_default (cid : ℕ) (B : List InReport) (k : PKey)
    (r : ProjectRow) (h : (loadBatch cid Store.empty B).projects.lookup k = some r) :
    r.risk = riskDefaults := by
  have hp : (loadBatch cid Store.empty B).projects = projFold cid Table.empty B :=
    loadBatch_projects cid Store.empty B
  rw [hp, projFold_lookup] at h
  rcases hrows : projRowsAt cid k B with _ | ⟨v, vs⟩
  · rw [hrows] at h
    exact absurd h (by simp [pchain, Table.empty])
  · rw [hrows] at h
    have h2 : pchain (some v) vs = some r := h
    rw [pchain_some] at h2
    injection h2 with h2
    have hv : v ∈ projRowsAt cid k B := by rw [hrows]; simp
    obtain ⟨r0, hr0, hk0, hvrow⟩ := mem_projRowsAt cid k B v hv
    have hrisk : r.risk = v.risk := by rw [← h2]
    rw [hrisk, hvrow]
    rfl

/-- C4.  Percentile-rank monotonicity and exclusion of unranked rows:
within a cluster's ranked window (rows with defined positive cost per
kW), a strictly cheaper project gets a strictly smaller rank and a
percentile no larger; and after loading a batch into an empty store,
rows outside the window keep null percentile, rank and cost score. -/
theorem C4_percentile_rank_monotone :
    (∀ (cid : ℕ) (s : Store) (kA kB : PKey) (rA rB : ProjectRow) (cA cB : ℚ),
      s.projects.lookup kA = some rA → s.projects.lookup kB = some rB →
      kA ∈ s.projects.keys →
      rA.cluster_id = cid → rB.cluster_id = cid →
      rA.cost_per_kw = some cA → rB.cost_per_kw = some cB →
      0 < cA → 0 < cB → cA < cB →
      ∃ rA2 rB2,
        (costRankPass cid s).projects.lookup kA = some rA2 ∧
        (costRankPass cid s).projects.lookup kB = some rB2 ∧
        rA2.risk.cost_rank = some (rankOf cid s cA) ∧
        rB2.risk.cost_rank = some (rankOf cid s cB) ∧
        rA2.risk.cost_percentile = some (percentileOf cid s cA) ∧
        rB2.risk.cost_percentile = some (percentileOf cid s cB) ∧
        rankOf cid s cA < rankOf cid s cB ∧
        percentileOf cid s cA ≤ percentileOf cid s cB) ∧
    (∀ (cid : ℕ) (B : List InReport) (k : PKey) (r2 : ProjectRow),
      (costRankPass cid (loadBatch cid Store.empty B)).projects.lookup k = some r2 →
      inRankedPop cid r2 = false →
      r2.risk.cost_percentile = none ∧ r2.risk.cost_rank = none ∧
        r2.risk.risk_score_cost = none) := by
  constructor
  · intro cid s kA kB rA rB cA cB hA hB hAmem hAcl hBcl hAcpk hBcpk hApos hBpos hAB
    have hinA : inRankedPop cid rA = true := by simp [inRankedPop, hAcl, hAcpk, hApos]
    have hinB : inRankedPop cid rB = true := by simp [inRankedPop, hBcl, hBcpk, hBpos]
    have hlkA : (costRankPass cid s).projects.lookup kA
        = some (costRankUpdate cid s rA) := by
      rw [costRankPass]
      show (s.projects.mapRows (fun _ r => costRankUpdate cid s r)).lookup kA = _
      rw [Table.lookup_mapRows, hA]
      rfl
    have hlkB : (costRankPass cid s).projects.lookup kB
        = some (costRankUpdate cid s rB) := by
      rw [costRankPass]
      show (s.projects.mapRows (fun _ r => costRankUpdate cid s r)).lookup kB = _
      rw [Table.lookup_mapRows, hB]
      rfl
    have hupA : costRankUpdate cid s rA = { rA with risk := { rA.risk with
        cost_percentile := some (percentileOf cid s cA),
        cost_rank := some (rankOf cid s cA),
        risk_score_cost := some (percentileOf cid s cA) } } := by
      rw [costRankUpdate, hAcpk, hinA]
      simp
    have hupB : costRankUpdate cid s rB = { rB with risk := { rB.risk with
        cost_percentile := some (percentileOf cid s cB),
        cost_rank := some (rankOf cid s cB),
        risk_score_cost := some (percentileOf cid s cB) } } := by
      rw [costRankUpdate, hBcpk, hinB]
      simp
    have hcount : (rankedPop cid s).countP (fun k =>
        match cpkOf s k with
        | some c2 => decide (c2 < cA)
        | none => false)
        < (rankedPop cid s).countP (fun k =>
        match cpkOf s k with
        | some c2 => decide (c2 < cB)
        | none => false) := by
      apply countP_lt_of_mem _ _ _ ?_ kA ?_ ?_ ?_
      · intro x _ hx
        rcases hc2 : cpkOf s x with _ | c2
        · rw [hc2] at hx; simp at hx
        · rw [hc2] at hx
          simp only [decide_eq_true_eq] at hx
          simp only [decide_eq_true_eq]
          exact lt_trans hx hAB
      · rw [rankedPop, List.mem_filter]
        refine ⟨hAmem, ?_⟩
        rw [hA]
        exact hinA
      · have hc : cpkOf s kA = some cA := by simp [cpkOf, hA, hAcpk]
        rw [hc]
        simp [hAB]
      · have hc : cpkOf s kA = some cA := by simp [cpkOf, hA, hAcpk]
        rw [hc]
        simp
    have hrank : rankOf cid s cA < rankOf cid s cB := by
      rw [rankOf, rankOf]
      omega
    have hpct : percentileOf cid s cA ≤ percentileOf cid s cB := by
      rw [percentileOf, percentileOf]
      by_cases hN : (rankedPop cid s).length ≤ 1
      · rw [if_pos hN, if_pos hN]
      · rw [if_neg hN, if_neg hN]
        have hN2 : (0 : ℚ) < ((rankedPop cid s).length : ℚ) - 1 := by
          have : 2 ≤ (rankedPop cid s).length := by omega
          have h2 : (2 : ℚ) ≤ ((rankedPop cid s).length : ℚ) := by
            exact_mod_cast this
          linarith
        have hnum : ((rankOf cid s cA - 1 : ℕ) : ℚ) ≤ ((rankOf cid s cB - 1 : ℕ) : ℚ) := by
          have : rankOf cid s cA - 1 ≤ rankOf cid s cB - 1 := by omega
          exact_mod_cast this
        have hdiv := (div_le_div_iff_of_pos_right hN2).mpr hnum
        have h100 : (0 : ℚ) ≤ 100 := by norm_num
        exact mul_le_mul_of_nonneg_right hdiv h100
    exact ⟨costRankUpdate cid s rA, costRankUpdate cid s rB, hlkA, hlkB,
      by rw [hupA], by rw [hupB], by rw [hupA], by rw [hupB], hrank, hpct⟩
  · intro cid B k r2 hlk hout
    have h2 : ((loadBatch cid Store.empty B).projects.lookup k).map
        (costRankUpdate cid (loadBatch cid Store.empty B)) = some r2 := hlk
    rcases hpre : (loadBatch cid Store.empty B).projects.lookup k with _ | r
    · rw [hpre] at h2; exact absurd h2 (by simp)
    · rw [hpre] at h2
      have h2b : some (costRankUpdate cid (loadBatch cid Store.empty B) r) = some r2 := h2
      injection h2b with h2
      have hdef : r.risk = riskDefaults := loadBatch_project_risk_default cid B k r hpre
      have hr2r : r2 = r := by
        rw [← h2]
        rw [costRankUpdate]
        rcases hc : r.cost_per_kw with _ | c
        · rfl
        · rcases hin : inRankedPop cid r with _ | _
          · simp
          · exfalso
            have : inRankedPop cid r2 = true := by
              rw [← h2, costRankUpdate, hc, hin]
              simp only [if_true]
              rw [inRankedPop] at hin ⊢
              rw [hc] at hin
              exact hin
            rw [this] at hout
            exact absurd hout (by simp)
      rw [hr2r, hdef]
      exact ⟨rfl, rfl, rfl⟩

/-- Closed-instance witness for the monotonicity half of
`C4_percentile_rank_monotone`: a two-project batch with cost per kW
1000 (= 2000000 / 2000) and 3000 (= 3000000 / 1000). -/
theorem C4_percentile_rank_monotone_witness :
    (let sW : Store := loadBatch 1 Store.empty
      [⟨"A", none, ⟨none, none, none, none, none, none, some 2, none⟩,
          ⟨some 2000000, none, none, none, none⟩, ⟨none, none⟩, [], []⟩,
        ⟨"B", none, ⟨none, none, none, none, none, none, some 1, none⟩,
          ⟨some 3000000, none, none, none, none⟩, ⟨none, none⟩, [], []⟩];
      ∃ rA2 rB2,
        (costRankPass 1 sW).projects.lookup ("A", 1) = some rA2 ∧
        (costRankPass 1 sW).projects.lookup ("B", 1) = some rB2 ∧
        rA2.risk.cost_rank = some (rankOf 1 sW (2000000 / (2 * 1000))) ∧
        rB2.risk.cost_rank = some (rankOf 1 sW (3000000 / (1 * 1000))) ∧
        rA2.risk.cost_percentile = some (percentileOf 1 sW (2000000 / (2 * 1000))) ∧
        rB2.risk.cost_percentile = some (percentileOf 1 sW (3000000 / (1 * 1000))) ∧
        rankOf 1 sW (2000000 / (2 * 1000)) < rankOf 1 sW (3000000 / (1 * 1000)) ∧
        percentileOf 1 sW (2000000 / (2 * 1000))
          ≤ percentileOf 1 sW (3000000 / (1 * 1000))) :=
  C4_percentile_rank_monotone.1 1
    (loadBatch 1 Store.empty
      [⟨"A", none, ⟨none, none, none, none, none, none, some 2, none⟩,
          ⟨some 2000000, none, none, none, none⟩, ⟨none, none⟩, [], []⟩,
        ⟨"B", none, ⟨none, none, none, none, none, none, some 1, none⟩,
          ⟨some 3000000, none, none, none, none⟩, ⟨none, none⟩, [], []⟩])
    ("A", 1) ("B", 1)
    ⟨"A", 1, "", "", "", "", "", some 2, none, "Active", some 2000000,
      some (2000000 / (2 * 1000)), none, none, none, none, none, none, "", riskDefaults⟩
    ⟨"B", 1, "", "", "", "", "", some 1, none, "Active", some 3000000,
      some (3000000 / (1 * 1000)), none, none, none, none, none, none, "", riskDefaults⟩
    (2000000 / (2 * 1000)) (3000000 / (1 * 1000))
    rfl rfl (by decide) rfl rfl rfl rfl (by norm_num) (by norm_num) (by norm_num)

/-- Every `COST_ALLOCATED` link row a batch load from empty stores
carries a strictly positive `allocated_cost`: the loader only assigns
that link type when the incoming allocated cost is positive, and then
stores that cost (the zero-null-out cannot fire). -/
theorem loadBatch_link_CA_cost_pos (cid : ℕ) (B : List InReport) (k : LKey) (row : LinkRow)
    (hrow : (loadBatch cid Store.empty B).links.lookup k = some row)
    (hCA : row.link_type = LinkType.COST_ALLOCATED) :
    ∃ a, row.allocated_cost = some a ∧ 0 < a := by
  have hl1 : (loadBatch cid Store.empty B).links
      = linkFold cid Table.empty (linkOps cid (Table.empty, 1) (ulOps B)) :=
    loadBatch_links cid Store.empty B
  rw [hl1, linkFold_lookup] at hrow
  rcases hrows : linkRowsAt cid k (linkOps cid (Table.empty, 1) (ulOps B)) with _ | ⟨v, vs⟩
  · rw [hrows] at hrow
    exact absurd hrow (by simp [lchain, Table.empty])
  · rw [hrows] at hrow
    have hrow2 : lchain (some v) vs = some row := hrow
    rw [lchain_some] at hrow2
    injection hrow2 with hrow2
    have hw : lastD v vs ∈ linkRowsAt cid k (linkOps cid (Table.empty, 1) (ulOps B)) := by
      rw [hrows]; exact lastD_mem vs v
    obtain ⟨ew, hew, hkw, hwrow⟩ := mem_linkRowsAt cid k _ (lastD v vs) hw
    subst hrow2
    have hCA2 : (lastD v vs).link_type = LinkType.COST_ALLOCATED := hCA
    rw [hwrow] at hCA2
    by_cases hpos : 0 < orZero ew.2.2.allocated_cost
    · refine ⟨orZero ew.2.2.allocated_cost, ?_, hpos⟩
      show (lastD v vs).allocated_cost = some (orZero ew.2.2.allocated_cost)
      rw [hwrow]
      show zeroToNull (orZero ew.2.2.allocated_cost) = some (orZero ew.2.2.allocated_cost)
      rw [zeroToNull, if_neg (ne_of_gt hpos)]
    · exfalso
      have hTNC : (newLinkRow cid ew.1 ew.2.1 ew.2.2).link_type
          = LinkType.TAGGED_NO_COST := by
        show (if 0 < orZero ew.2.2.allocated_cost then LinkType.COST_ALLOCATED
          else LinkType.TAGGED_NO_COST) = LinkType.TAGGED_NO_COST
        rw [if_neg hpos]
      rw [hTNC] at hCA2
      exact absurd hCA2 (by decide)

/-- Every allocated cost the concentration CTE aggregates over a
batch-loaded store is strictly positive. -/
theorem caCosts_mem_pos (cid : ℕ) (B : List InReport) (pid : String) (c : ℚ)
    (hc : c ∈ caCosts cid (loadBatch cid Store.empty B) pid) : 0 < c := by
  simp only [caCosts, List.mem_filterMap] at hc
  obtain ⟨k, hk, hck⟩ := hc
  rcases hlk : (loadBatch cid Store.empty B).links.lookup k with _ | row
  · rw [hlk] at hck
    exact absurd hck (by simp)
  · rw [hlk] at hck
    have hck2 : (if row.cluster_id = cid ∧ row.link_type = LinkType.COST_ALLOCATED ∧
        row.project_id = pid then row.allocated_cost else none) = some c := hck
    by_cases hcond : row.cluster_id = cid ∧ row.link_type = LinkType.COST_ALLOCATED ∧
        row.project_id = pid
    · rw [if_pos hcond] at hck2
      obtain ⟨a, ha, hpos⟩ := loadBatch_link_CA_cost_pos cid B k row hlk hcond.2.1
      rw [ha] at hck2
      injection hck2 with hck2
      rw [← hck2]
      exact hpos
    · rw [if_neg hcond] at hck2
      exact absurd hck2 (by simp)

/-- A project that has a `COST_ALLOCATED` link in the batch-loaded store
contributes at least one cost to the concentration aggregates. -/
theorem caCosts_ne_nil (cid : ℕ) (B : List InReport) (pid : String)
    (h : hasCALink cid (loadBatch cid Store.empty B) pid = true) :
    caCosts cid (loadBatch cid Store.empty B) pid ≠ [] := by
  simp only [hasCALink, List.any_eq_true] at h
  obtain ⟨k, hk, hpred⟩ := h
  rcases hlk : (loadBatch cid Store.empty B).links.lookup k with _ | row
  · exfalso
    have hpred2 : (match (loadBatch cid Store.empty B).links.lookup k with
        | some row => decide (row.cluster_id = cid) &&
            decide (row.link_type = LinkType.COST_ALLOCATED) &&
            decide (row.project_id = pid)
        | none => false) = true := hpred
    rw [hlk] at hpred2
    exact absurd hpred2 (by simp)
  · have hpred2 : (decide (row.cluster_id = cid) &&
        decide (row.link_type = LinkType.COST_ALLOCATED) &&
        decide (row.project_id = pid)) = true := by
      have hpred3 : (match (loadBatch cid Store.empty B).links.lookup k with
          | some row => decide (row.cluster_id = cid) &&
              decide (row.link_type = LinkType.COST_ALLOCATED) &&
              decide (row.project_id = pid)
          | none => false) = true := hpred
      rw [hlk] at hpred3
      exact hpred3
    simp only [Bool.and_eq_true, decide_eq_true_eq] at hpred2
    obtain ⟨⟨h1, h2⟩, h3⟩ := hpred2
    obtain ⟨a, ha, hpos⟩ := loadBatch_link_CA_cost_pos cid B k row hlk h2
    intro hnil
    have hstep : (match (loadBatch cid Store.empty B).links.lookup k with
        | some r => if r.cluster_id = cid ∧ r.link_type = LinkType.COST_ALLOCATED ∧
            r.project_id = pid then r.allocated_cost else none
        | none => none) = some a := by
      rw [hlk]
      show (if row.cluster_id = cid ∧ row.link_type = LinkType.COST_ALLOCATED ∧
          row.project_id = pid then row.allocated_cost else none) = some a
      rw [if_pos ⟨h1, h2, h3⟩, ha]
    have hmem : a ∈ caCosts cid (loadBatch cid Store.empty B) pid := by
      simp only [caCosts, List.mem_filterMap]
      exact ⟨k, hk, hstep⟩
    rw [hnil] at hmem
    exact absurd hmem (List.not_mem_nil a)

/-- `foldl max` over a list stays inside the list (with its seed). -/
theorem foldlMax_mem (cs : List ℚ) : ∀ c : ℚ, cs.foldl max c ∈ c :: cs := by
  induction cs with
  | nil => intro c; exact List.mem_singleton_self c
  | cons d ds ih =>
    intro c
    have h := ih (max c d)
    rcases List.mem_cons.mp h with h2 | h2
    · show ds.foldl max (max c d) ∈ c :: d :: ds
      rw [h2]
      rcases max_choice c d with h3 | h3 <;> rw [h3]
      · exact List.mem_cons_self c _
      · exact List.mem_cons_of_mem c (List.mem_cons_self d ds)
    · show ds.foldl max (max c d) ∈ c :: d :: ds
      exact List.mem_cons_of_mem c (List.mem_cons_of_mem d h2)

/-- C6.  Corrected: concentration score after pass 2 of
`calculate_risk_scores` on a batch-loaded store.  A cluster row whose
project has at least one `COST_ALLOCATED` link gets
`max(allocated) / sum(allocated) * 100`, which lies in `[0, 100]` and
equals `100` when the project has exactly one such cost (a zero sum
cannot arise: every stored `COST_ALLOCATED` cost is positive).  A row
whose project has no `COST_ALLOCATED` link is not matched by the
UPDATE's join against the grouped CTE, so it keeps the column's NULL
default — not the 0 the claim states. -/
theorem C6_concentration_score (cid : ℕ) (B : List InReport) (k : PKey) (r : ProjectRow)
    (hr : (loadBatch cid Store.empty B).projects.lookup k = some r)
    (hcl : r.cluster_id = cid) :
    (hasCALink cid (loadBatch cid Store.empty B) r.project_id = true →
      ∃ c cs, caCosts cid (loadBatch cid Store.empty B) r.project_id = c :: cs ∧
        0 < (c :: cs).sum ∧
        concentrationScore cid (loadBatch cid Store.empty B) r.project_id
          = (cs.foldl max c / (c :: cs).sum) * 100 ∧
        (concentrationPass cid (loadBatch cid Store.empty B)).projects.lookup k
          = some { r with risk := { r.risk with
              risk_score_concentration :=
                some ((cs.foldl max c / (c :: cs).sum) * 100) } } ∧
        0 ≤ (cs.foldl max c / (c :: cs).sum) * 100 ∧
        (cs.foldl max c / (c :: cs).sum) * 100 ≤ 100 ∧
        (cs = [] → (cs.foldl max c / (c :: cs).sum) * 100 = 100)) ∧
    (hasCALink cid (loadBatch cid Store.empty B) r.project_id = false →
      (concentrationPass cid (loadBatch cid Store.empty B)).projects.lookup k = some r ∧
      r.risk.risk_score_concentration = none) := by
  have hpass2 : (concentrationPass cid (loadBatch cid Store.empty B)).projects.lookup k
      = ((loadBatch cid Store.empty B).projects.lookup k).map (fun r =>
        if r.cluster_id = cid ∧
            hasCALink cid (loadBatch cid Store.empty B) r.project_id = true then
          { r with risk := { r.risk with
              risk_score_concentration :=
                some (concentrationScore cid (loadBatch cid Store.empty B)
                  r.project_id) } }
        else r) := rfl
  rw [hr] at hpass2
  have hpass3 : (concentrationPass cid (loadBatch cid Store.empty B)).projects.lookup k
      = some (if r.cluster_id = cid ∧
            hasCALink cid (loadBatch cid Store.empty B) r.project_id = true then
          { r with risk := { r.risk with
              risk_score_concentration :=
                some (concentrationScore cid (loadBatch cid Store.empty B)
                  r.project_id) } }
        else r) := hpass2
  constructor
  · intro hCA
    obtain ⟨c, cs, hcc⟩ :=
      List.exists_cons_of_ne_nil (caCosts_ne_nil cid B r.project_id hCA)
    have hposall : ∀ x ∈ c :: cs, 0 < x := by
      intro x hx
      exact caCosts_mem_pos cid B r.project_id x (hcc ▸ hx)
    have hS : 0 < (c :: cs).sum := List.sum_pos (c :: cs) hposall (by simp)
    have hscore : concentrationScore cid (loadBatch cid Store.empty B) r.project_id
        = (cs.foldl max c / (c :: cs).sum) * 100 := by
      have h1 : concentrationScore cid (loadBatch cid Store.empty B) r.project_id
          = match caCosts cid (loadBatch cid Store.empty B) r.project_id with
            | [] => 0
            | x :: xs => if 0 < (x :: xs).sum then
                (xs.foldl max x / (x :: xs).sum) * 100 else 0 := rfl
      rw [h1, hcc]
      exact if_pos hS
    rw [if_pos ⟨hcl, hCA⟩, hscore] at hpass3
    have hm_mem : cs.foldl max c ∈ c :: cs := foldlMax_mem cs c
    have hm_pos : 0 < cs.foldl max c := hposall _ hm_mem
    have hm_le : cs.foldl max c ≤ (c :: cs).sum :=
      List.single_le_sum (fun x hx => le_of_lt (hposall x hx)) _ hm_mem
    refine ⟨c, cs, hcc, hS, hscore, hpass3, ?_, ?_, ?_⟩
    · exact le_of_lt (mul_pos (div_pos hm_pos hS) (by norm_num))
    · have h1 : cs.foldl max c / (c :: cs).sum ≤ 1 := (div_le_one hS).mpr hm_le
      calc (cs.foldl max c / (c :: cs).sum) * 100 ≤ 1 * 100 :=
            mul_le_mul_of_nonneg_right h1 (by norm_num)
        _ = 100 := one_mul 100
    · intro hnil
      subst hnil
      simp only [List.foldl_nil, List.sum_cons, List.sum_nil, add_zero]
      rw [div_self (ne_of_gt (hposall c (List.mem_cons_self c [])))]
      exact one_mul 100
  · intro hCA
    have hnot : ¬ (r.cluster_id = cid ∧
        hasCALink cid (loadBatch cid Store.empty B) r.project_id = true) := by
      intro hcond
      rw [hCA] at hcond
      exact absurd hcond.2 (by simp)
    rw [if_neg hnot] at hpass3
    refine ⟨hpass3, ?_⟩
    have hdef := loadBatch_project_risk_default cid B k r hr
    rw [hdef]
    rfl

/-- Closed-instance witness for `C6_concentration_score`: a one-report
batch whose project has a single upgrade with allocated cost 100, so the
project has exactly one `COST_ALLOCATED` link and its concentration
score is 100. -/
theorem C6_concentration_score_witness :
    (let sW : Store := loadBatch 5 Store.empty
      [⟨"P1", none, ⟨none, none, none, none, none, none, none, none⟩,
        ⟨none, none, none, none, none⟩, ⟨none, none⟩,
        [⟨"n1", "T1", none, none, none, some 100⟩], []⟩];
     ∃ c cs, caCosts 5 sW "P1" = c :: cs ∧
       0 < (c :: cs).sum ∧
       concentrationScore 5 sW "P1" = (cs.foldl max c / (c :: cs).sum) * 100 ∧
       (concentrationPass 5 sW).projects.lookup ("P1", 5)
         = some ⟨"P1", 5, "", "", "", "", "", none, none, "Active", none, none,
             none, none, none, none, none, none, "",
             ⟨none, none, none, some ((cs.foldl max c / (c :: cs).sum) * 100),
               none, none, none⟩⟩ ∧
       0 ≤ (cs.foldl max c / (c :: cs).sum) * 100 ∧
       (cs.foldl max c / (c :: cs).sum) * 100 ≤ 100 ∧
       (cs = [] → (cs.foldl max c / (c :: cs).sum) * 100 = 100)) :=
  (C6_concentration_score 5
    [⟨"P1", none, ⟨none, none, none, none, none, none, none, none⟩,
      ⟨none, none, none, none, none⟩, ⟨none, none⟩,
      [⟨"n1", "T1", none, none, none, some 100⟩], []⟩]
    ("P1", 5)
    ⟨"P1", 5, "", "", "", "", "", none, none, "Active", none, none,
      none, none, none, none, none, none, "", riskDefaults⟩
    rfl rfl).1 (by decide)

/-- The claim as stated fails for weight vectors that sum to 1 but have
a negative component: with weights `(2, -1, 0, 0)` and component scores
`(100, 0, 0, 0)` — each inside `[0, 100]` — pass 5 stores an overall
score of 200, outside `[0, 100]`. -/
theorem C7_overall_score_counterexample :
    negWeights.cost + negWeights.concentration + negWeights.dependency
        + negWeights.timeline = 1 ∧
    (0 ≤ rowCW.risk.risk_score_cost.getD 0 ∧ rowCW.risk.risk_score_cost.getD 0 ≤ 100) ∧
    (0 ≤ rowCW.risk.risk_score_concentration.getD 0 ∧
      rowCW.risk.risk_score_concentration.getD 0 ≤ 100) ∧
    (0 ≤ rowCW.risk.risk_score_dependency.getD 0 ∧
      rowCW.risk.risk_score_dependency.getD 0 ≤ 100) ∧
    (0 ≤ rowCW.risk.risk_score_timeline.getD 0 ∧
      rowCW.risk.risk_score_timeline.getD 0 ≤ 100) ∧
    ∃ r2, (overallPass negWeights 1 storeCW).projects.lookup ("P", 1) = some r2 ∧
      r2.risk.risk_score_overall = some (overallScore negWeights rowCW) ∧
      100 < overallScore negWeights rowCW := by
  refine ⟨by norm_num [negWeights], ⟨by decide, by decide⟩, ⟨by decide, by decide⟩,
    ⟨by decide, by decide⟩, ⟨by decide, by decide⟩, _, rfl, rfl, ?_⟩
  show (100 : ℚ) < overallScore negWeights rowCW
  norm_num [overallScore, negWeights, rowCW]

/-- C7.  Overall-score bound, amended with the nonnegativity the claim's
"valid weight vector" leaves implicit: for every weight vector with
nonnegative components summing to 1 and every cluster row whose four
component scores (a NULL component reading as 0, as the UPDATE
`COALESCE`s each one) lie in `[0, 100]`,
pass 5 stores the weighted sum as the overall score and that sum lies in
`[0, 100]`. -/
theorem C7_overall_score_bound (w : RiskWeights) (cid : ℕ) (s : Store) (k : PKey)
    (r : ProjectRow)
    (hwc : 0 ≤ w.cost) (hwk : 0 ≤ w.concentration) (hwd : 0 ≤ w.dependency)
    (hwt : 0 ≤ w.timeline)
    (hw1 : w.cost + w.concentration + w.dependency + w.timeline = 1)
    (hr : s.projects.lookup k = some r) (hcl : r.cluster_id = cid)
    (h1a : 0 ≤ r.risk.risk_score_cost.getD 0) (h1b : r.risk.risk_score_cost.getD 0 ≤ 100)
    (h2a : 0 ≤ r.risk.risk_score_concentration.getD 0)
    (h2b : r.risk.risk_score_concentration.getD 0 ≤ 100)
    (h3a : 0 ≤ r.risk.risk_score_dependency.getD 0)
    (h3b : r.risk.risk_score_dependency.getD 0 ≤ 100)
    (h4a : 0 ≤ r.risk.risk_score_timeline.getD 0)
    (h4b : r.risk.risk_score_timeline.getD 0 ≤ 100) :
    ∃ r2, (overallPass w cid s).projects.lookup k = some r2 ∧
      r2.risk.risk_score_overall = some (overallScore w r) ∧
      0 ≤ overallScore w r ∧ overallScore w r ≤ 100 := by
  have hpass2 : (overallPass w cid s).projects.lookup k
      = (s.projects.lookup k).map (fun r =>
        if r.cluster_id = cid then
          { r with risk := { r.risk with
              risk_score_overall := some (overallScore w r) } }
        else r) := rfl
  rw [hr] at hpass2
  have hpass3 : (overallPass w cid s).projects.lookup k
      = some (if r.cluster_id = cid then
          { r with risk := { r.risk with
              risk_score_overall := some (overallScore w r) } }
        else r) := hpass2
  rw [if_pos hcl] at hpass3
  refine ⟨_, hpass3, rfl, ?_, ?_⟩
  · rw [overallScore]
    exact add_nonneg (add_nonneg (add_nonneg (mul_nonneg h1a hwc)
      (mul_nonneg h2a hwk)) (mul_nonneg h3a hwd)) (mul_nonneg h4a hwt)
  · rw [overallScore]
    have b1 := mul_le_mul_of_nonneg_right h1b hwc
    have b2 := mul_le_mul_of_nonneg_right h2b hwk
    have b3 := mul_le_mul_of_nonneg_right h3b hwd
    have b4 := mul_le_mul_of_nonneg_right h4b hwt
    have h100 : 100 * (w.cost + w.concentration + w.dependency + w.timeline)
        = 100 := by rw [hw1, mul_one]
    linarith [b1, b2, b3, b4, h100]

/-- Closed-instance witness for `C7_overall_score_bound` at the
configured `RISK_WEIGHTS` and the one-row store `storeCW`. -/
theorem C7_overall_score_bound_witness :
    ∃ r2, (overallPass RISK_WEIGHTS 1 storeCW).projects.lookup ("P", 1) = some r2 ∧
      r2.risk.risk_score_overall = some (overallScore RISK_WEIGHTS rowCW) ∧
      0 ≤ overallScore RISK_WEIGHTS rowCW ∧ overallScore RISK_WEIGHTS rowCW ≤ 100 :=
  C7_overall_score_bound RISK_WEIGHTS 1 storeCW ("P", 1) rowCW
    (by norm_num [RISK_WEIGHTS]) (by norm_num [RISK_WEIGHTS])
    (by norm_num [RISK_WEIGHTS]) (by norm_num [RISK_WEIGHTS])
    (by norm_num [RISK_WEIGHTS]) rfl rfl
    (by decide) (by decide) (by decide) (by decide)
    (by decide) (by decide) (by decide) (by decide)

/-- The claim's "last resort only" fails on a concrete document:
`tableT0`'s headers conclusively classify it as an upgrade summary (not
as a cost summary), yet `_extract_cost_summary` still processes it
because it sits in slot 0, storing 100 as the report's total cost. -/
theorem C8_positional_classification_counterexample :
    classifySpec tableT0 = TableRole.UPGRADE_SUMMARY ∧
    classifySpec tableT0 ≠ TableRole.COST_SUMMARY ∧
    extract_cost_summary [tableT0] ⟨none, none, none, none, none⟩
      = ⟨some ((1 : ℚ) * 100), none, none, none, none⟩ ∧
    (1 : ℚ) * 100 = 100 :=
  ⟨rfl, by decide, rfl, by norm_num⟩

/-- C8.  Corrected: the slot assignment is unconditionally positional,
not a last resort.  The cost-summary extraction depends only on the
first table — whatever the headers of any table say — and the readiness
extraction depends only on the second table; header classification never
reroutes the two slots (it only routes the upgrade and allocation
extractors, which scan every table independently). -/
theorem C8_positional_extraction :
    (∀ (t : DocTable) (ts ts2 : List DocTable) (cs : InCostSummary),
      extract_cost_summary (t :: ts) cs = extract_cost_summary (t :: ts2) cs) ∧
    (∀ (t0 t0b t1 : DocTable) (ts ts2 : List DocTable) (rd : InReadiness),
      extract_readiness (t0 :: t1 :: ts) rd = extract_readiness (t0b :: t1 :: ts2) rd) :=
  ⟨fun _ _ _ _ => rfl, fun _ _ _ _ _ _ => rfl⟩

/-- The claim's "a project with no COST_ALLOCATED links is left at 0
after the recompute pass" fails: pass 2's UPDATE joins the grouped CTE,
so such a row is never matched and keeps the column's NULL default.
Concretely, a freshly loaded report with no upgrades reads NULL — not
0 — after the pass. -/
theorem C6_concentration_score_counterexample :
    ∃ r2, (concentrationPass 3 (loadBatch 3 Store.empty
        [⟨"P2", none, ⟨none, none, none, none, none, none, none, none⟩,
          ⟨none, none, none, none, none⟩, ⟨none, none⟩, [], []⟩])).projects.lookup
        ("P2", 3) = some r2 ∧
      r2.risk.risk_score_concentration = none ∧
      r2.risk.risk_score_concentration ≠ some 0 :=
  ⟨_, rfl, rfl, by decide⟩
